import Mathlib

/-!
Verification development for `libmhtml.py`, an MHTML creator/parser.

The program is embedded shallowly: Python strings and byte strings are both
modelled as `List Nat` (Unicode code points resp. byte values; all text the
program emits is ASCII, where the two coincide).  The content codecs the
program calls (`quopri.encodestring` / `quopri.decodestring`, which delegate
to `binascii.b2a_qp` / `binascii.a2b_qp`, and `base64.b64encode` /
`base64.b64decode`, which delegate to `binascii.b2a_base64` /
`binascii.a2b_base64`) are modelled instruction for instruction after the
CPython implementations, with the flag arguments fixed to the values the
program passes (`quotetabs=False`, `header=False`, `istext=True`).
-/

namespace Mhtml

/-- Code points of a Lean string literal.  Used only on ASCII literals, where
code points and UTF-8 bytes coincide. -/
def sB (s : String) : List Nat := s.data.map Char.toNat

/-- ASCII lower casing, as Python case-insensitive regex matching does on ASCII. -/
def lowerB (c : Nat) : Nat := if 65 ≤ c ∧ c ≤ 90 then c + 32 else c

/-- Membership in the Python `str.strip()` default whitespace set
(space, tab, LF, CR, VT, FF). -/
def isWsB (c : Nat) : Bool := c = 32 || c = 9 || c = 10 || c = 13 || c = 11 || c = 12

/-- Python `str.strip()`: remove leading and trailing whitespace. -/
def pstrip (s : List Nat) : List Nat :=
  ((s.dropWhile isWsB).reverse.dropWhile isWsB).reverse

/-- Case-insensitive (ASCII) list prefix test. -/
def isPreCI : List Nat → List Nat → Bool
  | [], _ => true
  | _ :: _, [] => false
  | p :: ps, c :: cs => lowerB p == lowerB c && isPreCI ps cs

/-- Case-sensitive list prefix test (Boolean). -/
def isPre : List Nat → List Nat → Bool
  | [], _ => true
  | _ :: _, [] => false
  | p :: ps, c :: cs => p == c && isPre ps cs

/-- Remainder of `s` after the first case-insensitive occurrence of `pat`,
or `none` when `pat` does not occur.  Models the position at which
`re.search(pat, s, re.I)` succeeds for a pattern that is a literal. -/
def searchCI (pat : List Nat) : List Nat → Option (List Nat)
  | [] => if pat = [] then some [] else none
  | c :: rest =>
    if isPreCI pat (c :: rest) then some ((c :: rest).drop pat.length)
    else searchCI pat rest

/-- Case-sensitive first-occurrence search, returning the remainder after
the occurrence. -/
def searchCS (pat : List Nat) : List Nat → Option (List Nat)
  | [] => if pat = [] then some [] else none
  | c :: rest =>
    if isPre pat (c :: rest) then some ((c :: rest).drop pat.length)
    else searchCS pat rest

/-- Boolean occurrence test for a (case-sensitive) literal pattern. -/
def occursIn (pat s : List Nat) : Bool := (searchCS pat s).isSome

/-- Value extraction for the header regexes of `parse_part`:
`re.search("Name: (.*)", part, re.I)` followed by `.groups()[0].strip()`,
with the empty string when the search fails.  The captured group is the rest
of the line after the literal (regex `.` does not match a newline). -/
def headerValue (pat : List Nat) (s : List Nat) : List Nat :=
  match searchCI pat s with
  | none => []
  | some rest => pstrip (rest.takeWhile (fun c => c ≠ 10))

/-- Worker for `Python str.split` with a nonempty literal separator:
`skip` counts separator characters still to be consumed after a match,
`acc` holds the current segment reversed. -/
def splitSk (sep : List Nat) : List Nat → Nat → List Nat → List (List Nat)
  | [], _, acc => [acc.reverse]
  | _ :: rest, skip + 1, acc => splitSk sep rest skip acc
  | c :: rest, 0, acc =>
    if isPre sep (c :: rest) then
      acc.reverse :: splitSk sep rest (sep.length - 1) []
    else
      splitSk sep rest 0 (c :: acc)

/-- Python `s.split(sep)` for a nonempty literal separator. -/
def splitOnB (sep s : List Nat) : List (List Nat) := splitSk sep s 0 []

/-! ## Quoted-printable codec

`quopri.encodestring(b)` and `quopri.decodestring(t)` delegate to
`binascii.b2a_qp(b, quotetabs=False, istext=True, header=False)` and
`binascii.a2b_qp(t, header=False)`.  The definitions below follow the C
implementation in `Modules/binascii.c`. -/

/-- Upper-case hex digit character of a value below 16. -/
def hexDigU (n : Nat) : Nat := if n < 10 then 48 + n else 55 + n

/-- Condition under which `b2a_qp` hex-quotes the byte `c`, given the
following byte (`none` at end of data) and the current output line length.
With the fixed flags `quotetabs=False`, `header=False`, `istext=True`,
the C condition
`(c>126) || (c=='=') || (header && c=='_')
 || ((c=='.') && (linelen==0) && (next is end|LF|CR|NUL))
 || (!istext && (c=='\r' || c=='\n'))
 || ((c=='\t'||c==' ') && (next is end))
 || ((c<33) && (c!='\r') && (c!='\n') && (quotetabs || (c!='\t' && c!=' ')))`
reduces to the disjunction below. -/
def needsQuote (c : Nat) (next : Option Nat) (linelen : Nat) : Bool :=
  (126 < c) || (c == 61) ||
  (c == 46 && linelen == 0 &&
    (next == none || next == some 10 || next == some 13 || next == some 0)) ||
  ((c == 9 || c == 32) && next == none) ||
  (c < 33 && c != 13 && c != 10 && c != 9 && c != 32)

/-- Line-break characters pushed on the reversed output: `\n`, preceded by
`\r` when the input was detected to use CRLF line ends. -/
def nlPush (crlf : Bool) (racc : List Nat) : List Nat :=
  10 :: (if crlf then 13 :: racc else racc)

/-- Protection against whitespace at the end of an output line: when the last
output character is a space or tab, `b2a_qp` rewrites it in place to its
hex-quoted form before emitting the line break. -/
def wsFix (racc : List Nat) : List Nat :=
  match racc with
  | [] => []
  | p :: t => if p = 32 || p = 9 then hexDigU (p % 16) :: hexDigU (p / 16) :: 61 :: t else p :: t

/-- Soft line break `=` + line end, pushed on the reversed output. -/
def softBreak (crlf : Bool) (racc : List Nat) : List Nat :=
  nlPush crlf (61 :: racc)

/-- CRLF-convention detection of `b2a_qp`: the data uses CRLF line ends when
its first `\n` is preceded by `\r`. -/
def detectCRLF : List Nat → Bool
  | [] => false
  | 13 :: 10 :: _ => true
  | 10 :: _ => false
  | _ :: rest => detectCRLF rest

/-- Main loop of `b2a_qp` (with `quotetabs=False`, `header=False`,
`istext=True`): `linelen` is the current output line length, `racc` the
reversed output so far. -/
def qpEncGo (crlf : Bool) : List Nat → Nat → List Nat → List Nat
  | [], _, racc => racc.reverse
  | 13 :: 10 :: rest, _, racc => qpEncGo crlf rest 0 (nlPush crlf (wsFix racc))
  | 10 :: rest, _, racc => qpEncGo crlf rest 0 (nlPush crlf (wsFix racc))
  | c :: rest, linelen, racc =>
    if needsQuote c rest.head? linelen then
      if linelen + 3 ≥ 76 then
        qpEncGo crlf rest 3 (hexDigU (c % 16) :: hexDigU (c / 16) :: 61 :: softBreak crlf racc)
      else
        qpEncGo crlf rest (linelen + 3) (hexDigU (c % 16) :: hexDigU (c / 16) :: 61 :: racc)
    else
      if rest ≠ [] && rest.head? != some 10 && linelen + 1 ≥ 76 then
        qpEncGo crlf rest 1 (c :: softBreak crlf racc)
      else
        qpEncGo crlf rest (linelen + 1) (c :: racc)

/-- Model of `quopri.encodestring`, i.e. of
`binascii.b2a_qp(b, quotetabs=False, istext=True, header=False)`. -/
def qpEncode (b : List Nat) : List Nat := qpEncGo (detectCRLF b) b 0 []

/-- Hex digit test of `a2b_qp` (upper case, lower case and decimal digits). -/
def isHexB (c : Nat) : Bool :=
  (48 ≤ c && c ≤ 57) || (65 ≤ c && c ≤ 70) || (97 ≤ c && c ≤ 102)

/-- Value of a hex digit character. -/
def hexValB (c : Nat) : Nat :=
  if c ≤ 57 then c - 48 else if c ≤ 70 then c - 55 else c - 87

/-- Decoder state of `a2b_qp`: scanning normally, just after `=`, after `=`
and one hex digit, or skipping to the next `\n` after `=\r`. -/
inductive QpSt where
  | normal : QpSt
  | sawEq : QpSt
  | sawEqHex : Nat → QpSt
  | skipCR : QpSt
deriving DecidableEq

/-- Main loop of `a2b_qp` (with `header=False`), as a character-at-a-time
state machine equivalent to the C loop. -/
def qpDecGo : List Nat → QpSt → List Nat
  | [], .normal => []
  | [], .sawEq => []
  | [], .sawEqHex h => [61, h]
  | [], .skipCR => []
  | c :: r, .normal => if c = 61 then qpDecGo r .sawEq else c :: qpDecGo r .normal
  | c :: r, .sawEq =>
    if c = 10 then qpDecGo r .normal
    else if c = 13 then qpDecGo r .skipCR
    else if c = 61 then 61 :: qpDecGo r .normal
    else if isHexB c then qpDecGo r (.sawEqHex c)
    else 61 :: c :: qpDecGo r .normal
  | c :: r, .sawEqHex h =>
    if isHexB c then (16 * hexValB h + hexValB c) :: qpDecGo r .normal
    else if c = 61 then 61 :: h :: qpDecGo r .sawEq
    else 61 :: h :: c :: qpDecGo r .normal
  | c :: r, .skipCR => if c = 10 then qpDecGo r .normal else qpDecGo r .skipCR

/-- Model of `quopri.decodestring`, i.e. of `binascii.a2b_qp(t, header=False)`. -/
def qpDecode (t : List Nat) : List Nat := qpDecGo t .normal

/-! ## Base64 codec -/

/-- Character of the standard base64 alphabet for a value below 64. -/
def b64Chr (n : Nat) : Nat :=
  if n < 26 then 65 + n
  else if n < 52 then 97 + (n - 26)
  else if n < 62 then 48 + (n - 52)
  else if n = 62 then 43 else 47

/-- Inverse alphabet lookup: `some v` for an alphabet character, `none`
otherwise (the pad character `=` is not in the alphabet). -/
def b64Val (c : Nat) : Option Nat :=
  if 65 ≤ c ∧ c ≤ 90 then some (c - 65)
  else if 97 ≤ c ∧ c ≤ 122 then some (c - 97 + 26)
  else if 48 ≤ c ∧ c ≤ 57 then some (c - 48 + 52)
  else if c = 43 then some 62
  else if c = 47 then some 63
  else none

/-- Model of `base64.b64encode` (`binascii.b2a_base64` without the trailing
newline): three input bytes become four alphabet characters, a short final
group is padded with `=`. -/
def b64Encode : List Nat → List Nat
  | [] => []
  | [x] => [b64Chr (x / 4), b64Chr (x % 4 * 16), 61, 61]
  | [x, y] => [b64Chr (x / 4), b64Chr (x % 4 * 16 + y / 16), b64Chr (y % 16 * 4), 61]
  | x :: y :: z :: r =>
    b64Chr (x / 4) :: b64Chr (x % 4 * 16 + y / 16) :: b64Chr (y % 16 * 4 + z / 64) ::
      b64Chr (z % 64) :: b64Encode r

/-- First character of `s` that is either an alphabet character or the pad
`=`; models `binascii_find_valid`. -/
def b64NextValid : List Nat → Option Nat
  | [] => none
  | c :: r => if c = 61 || (b64Val c).isSome then some c else b64NextValid r

/-- Main loop of `binascii.a2b_base64` (non-strict mode): `quad` is the
position inside the current four-character group, `bits` the pending partial
value.  Characters outside the alphabet are skipped; a pad character at
group position 3, or at position 2 when the next valid character is also a
pad, ends the data; a pad elsewhere and trailing incomplete groups are
padding errors (`binascii.Error`), modelled as `none`. -/
def b64DecGo : List Nat → Nat → Nat → Option (List Nat)
  | [], quad, _ => if quad = 0 then some [] else none
  | c :: r, quad, bits =>
    if c = 61 then
      if quad = 3 then some []
      else if quad = 2 then
        match b64NextValid r with
        | some 61 => some []
        | _ => none
      else b64DecGo r quad bits
    else
      match b64Val c with
      | none => b64DecGo r quad bits
      | some v =>
        match quad with
        | 0 => b64DecGo r 1 v
        | 1 => (b64DecGo r 2 (v % 16)).map (fun out => (bits * 4 + v / 16) :: out)
        | 2 => (b64DecGo r 3 (v % 4)).map (fun out => (bits * 16 + v / 4) :: out)
        | _ => (b64DecGo r 0 0).map (fun out => (bits * 64 + v) :: out)

/-- Model of `base64.b64decode` / `binascii.a2b_base64`. -/
def b64Decode (t : List Nat) : Option (List Nat) := b64DecGo t 0 0

/-- Chunking of a list into pieces of 76, with enough fuel. -/
def chunks76 : Nat → List Nat → List (List Nat)
  | 0, _ => []
  | _, [] => []
  | fuel + 1, s => s.take 76 :: chunks76 fuel (s.drop 76)

/-- Line wrapping of the base64 text in `add_part`:
`"\n".join(s[pos:pos+76] for pos in range(0, len(s), 76))`. -/
def wrap76 (s : List Nat) : List Nat := List.intercalate [10] (chunks76 s.length s)

/-- Lengths of the physical lines of a text (the segments between LF
characters): `lineLens "ab\nc"` is `[2, 1]`, and the list always has one
entry per line, including empty ones. -/
def lineLens : List Nat → List Nat
  | [] => [0]
  | 10 :: r => 0 :: lineLens r
  | _ :: r =>
    match lineLens r with
    | [] => [1]
    | n :: ns => (n + 1) :: ns

/-! ## The program functions of libmhtml.py -/

/-- Errors of the embedded program.  The Python code signals them as
`sys.exit(-1)` after a message, a `(-1, message)` return value, or an
unhandled exception (`crash`); in the embedding all become `Except.error`. -/
inductive MErr where
  | missingBoundary : MErr
  | unsupportedEncoding : MErr
  | unknownMime : MErr
  | crash : MErr
deriving DecidableEq, Repr

/-- Decidable equality on `Except`, used to evaluate the models on concrete
inputs. -/
instance {ε α : Type} [DecidableEq ε] [DecidableEq α] : DecidableEq (Except ε α) := fun
  | .error e, .error f =>
    if h : e = f then .isTrue (by rw [h]) else .isFalse (fun hh => by cases hh; exact h rfl)
  | .error _, .ok _ => .isFalse (fun hh => by cases hh)
  | .ok _, .error _ => .isFalse (fun hh => by cases hh)
  | .ok a, .ok b =>
    if h : a = b then .isTrue (by rw [h]) else .isFalse (fun hh => by cases hh; exact h rfl)

/-- UTF-8 encoding of one code point (Python `str.encode()` on one character). -/
def utf8E1 (c : Nat) : List Nat :=
  if c < 128 then [c]
  else if c < 2048 then [192 + c / 64, 128 + c % 64]
  else if c < 65536 then [224 + c / 4096, 128 + c / 64 % 64, 128 + c % 64]
  else [240 + c / 262144, 128 + c / 4096 % 64, 128 + c / 64 % 64, 128 + c % 64]

/-- UTF-8 encoding of a string of code points, modelling `as_bytes` /
`str.encode()`. -/
def utf8E (s : List Nat) : List Nat := (s.map utf8E1).flatten

/-- Substitution of every occurrence of the single character `p` by `r`;
models `re.compile(symbol).sub(sub, s)` for the one-character patterns used
in `q_encode`. -/
def reSub1 (p : Nat) (r : List Nat) : List Nat → List Nat
  | [] => []
  | c :: t => if c = p then r ++ reSub1 p r t else c :: reSub1 p r t

/-- Model of `q_encode(s, enc)`: quoted-printable encode the UTF-8 bytes of
`s`, then apply the substitutions `? -> =3F`, `_ -> =5F`, `(space) -> _` in
the insertion order of the `substitutions` dict, and wrap the result in the
RFC2047 encoded-word frame. -/
def q_encode (s enc : List Nat) : List Nat :=
  let t0 := qpEncode (utf8E s)
  let t1 := reSub1 63 (sB "=3F") t0
  let t2 := reSub1 95 (sB "=5F") t1
  let t3 := reSub1 32 (sB "_") t2
  sB "=?" ++ enc ++ sB "?Q?" ++ t3 ++ sB "?="

/-- Python substring test `sub in t`. -/
def pyIn (sub t : List Nat) : Bool := occursIn sub t

/-- Model of `ext2mime(t)`.  The argument is the result of `imghdr.what`;
on `None` the expression `"gif" in t` raises `TypeError` (modelled as
`crash`).  The conditions are modelled exactly as written in Python,
including the operator-precedence slip in
`elif "jpeg" or "jpg" in t:` and `elif "bm" or "bmp" in t:`, where the
left operand is a nonempty (hence truthy) string literal, so the branch is
always taken; the `ico`, `bm` and final `None` branches are dead code. -/
def ext2mime (t : Option (List Nat)) : Except MErr (Option (List Nat)) :=
  match t with
  | none => .error .crash
  | some t =>
    if pyIn (sB "gif") t then .ok (some (sB "image/gif"))
    else if pyIn (sB "png") t then .ok (some (sB "image/png"))
    else if decide (sB "jpeg" ≠ []) || pyIn (sB "jpg") t then .ok (some (sB "image/jpeg"))
    else if pyIn (sB "ico") t then .ok (some (sB "image/x-icon"))
    else if decide (sB "bm" ≠ []) || pyIn (sB "bmp") t then .ok (some (sB "image/bmp"))
    else .ok none

/-- PNG signature bytes. -/
def pngSig : List Nat := [137, 80, 78, 71, 13, 10, 26, 10]

/-- Model of `imghdr.what` on in-memory data: the stdlib runs its fixed test
list (jpeg, png, gif, tiff, rgb, pbm, pgm, ppm, rast, xbm, bmp, webp, exr,
in order) against the first 32 bytes and returns the first matching format
name, else `None`. -/
def imghdr_what (contents : List Nat) : Option (List Nat) :=
  let h := contents.take 32
  if (h.drop 6).take 4 = sB "JFIF" ∨ (h.drop 6).take 4 = sB "Exif" then some (sB "jpeg")
  else if isPre pngSig h then some (sB "png")
  else if h.take 6 = sB "GIF87a" ∨ h.take 6 = sB "GIF89a" then some (sB "gif")
  else if h.take 2 = sB "MM" ∨ h.take 2 = sB "II" then some (sB "tiff")
  else if isPre [1, 218] h then some (sB "rgb")
  else if pnmTest h 49 52 then some (sB "pbm")
  else if pnmTest h 50 53 then some (sB "pgm")
  else if pnmTest h 51 54 then some (sB "ppm")
  else if isPre [89, 166, 106, 149] h then some (sB "rast")
  else if isPre (sB "#define ") h then some (sB "xbm")
  else if isPre (sB "BM") h then some (sB "bmp")
  else if h.take 4 = sB "RIFF" ∧ (h.drop 8).take 4 = sB "WEBP" then some (sB "webp")
  else if isPre [118, 47, 49, 1] h then some (sB "exr")
  else none
where
  /-- The shared shape of the netpbm tests: `P`, then one of two digits,
  then a whitespace byte. -/
  pnmTest (h : List Nat) (d1 d2 : Nat) : Bool :=
    match h with
    | 80 :: b :: c :: _ => (b = d1 || b = d2) && (c = 32 || c = 9 || c = 10 || c = 13)
    | _ => false

/-- Suffix test on lists. -/
def endsWithB (suf s : List Nat) : Bool := isPre suf.reverse s.reverse

/-- Modelled subset of the stdlib extension map consulted by
`mimetypes.guess_type`, restricted to extensions exercised in this
development. -/
def guessTypeTable : List (List Nat × List Nat) :=
  [(sB ".html", sB "text/html"), (sB ".htm", sB "text/html"),
   (sB ".css", sB "text/css"), (sB ".js", sB "text/javascript"),
   (sB ".png", sB "image/png"), (sB ".gif", sB "image/gif"),
   (sB ".jpg", sB "image/jpeg"), (sB ".jpeg", sB "image/jpeg"),
   (sB ".ico", sB "image/vnd.microsoft.icon"), (sB ".bmp", sB "image/bmp"),
   (sB ".txt", sB "text/plain")]

/-- Model of `guess_type(url)[0]`: map the extension of the URL to a MIME
type, `none` when the extension is unknown. -/
def guess_type (url : List Nat) : Option (List Nat) :=
  (guessTypeTable.find? (fun e => endsWithB e.1 url)).map (fun e => e.2)

/-- Model of `add_header(subject, date, boundary)`. -/
def add_header (subject date boundary : List Nat) : List Nat :=
  sB "From: <saved by libmhtml.py>\nSubject: " ++ subject ++
  sB "\nDate: " ++ date ++
  sB "\nMIME-Version: 1.0\nContent-Type: multipart/related;\n    type=\"text/html\";\n    boundary=\"" ++
  boundary ++ sB "\"\n"

/-- Header block of one part as emitted by `add_part`. -/
def partHeader (ptype boundary content_type url : List Nat) : List Nat :=
  sB "\n--" ++ boundary ++
  sB "\nContent-Type: " ++ content_type ++
  sB "\nContent-Transfer-Encoding: " ++ ptype ++
  sB "\nContent-Location: " ++ url ++ sB "\n\n"

/-- Model of `add_part(ptype, boundary, content_type, url, contents)`: the
part header followed by the encoded body.  An unknown `ptype` prints
`Unknown mime type` and calls `sys.exit(-1)`, modelled as a fatal error. -/
def add_part (ptype boundary content_type url contents : List Nat) :
    Except MErr (List Nat) :=
  if ptype = sB "quoted-printable" then
    .ok (partHeader ptype boundary content_type url ++ qpEncode contents)
  else if ptype = sB "base64" then
    .ok (partHeader ptype boundary content_type url ++ wrap76 (b64Encode contents))
  else .error .unsupportedEncoding

/-- Fields of `time.localtime` used by `get_url`. -/
structure Tm where
  year : Nat
  month : Nat
  day : Nat
  hour : Nat
  min : Nat
  sec : Nat

/-- Decimal digit characters of `n`, least significant first, with fuel. -/
def digsRev : Nat → Nat → List Nat
  | 0, _ => []
  | fuel + 1, n => if n < 10 then [48 + n] else (48 + n % 10) :: digsRev fuel (n / 10)

/-- Decimal digit characters of `n`, most significant first. -/
def digs (n : Nat) : List Nat := (digsRev n n).reverse

/-- Decimal digits of `n`, zero padded on the left to width `w`
(the behaviour of the zero-padded `strftime` fields). -/
def padZ (w n : Nat) : List Nat :=
  let d := digs n
  List.replicate (w - d.length) 48 ++ d

/-- Boundary token generated by `get_url`:
`"----=_NextPart_%s" % time.strftime("%Y%m%d_%H%M%S", lt)`. -/
def mkBoundary (t : Tm) : List Nat :=
  sB "----=_NextPart_" ++ padZ 4 t.year ++ padZ 2 t.month ++ padZ 2 t.day ++
  sB "_" ++ padZ 2 t.hour ++ padZ 2 t.min ++ padZ 2 t.sec

/-- Configuration record: the three caller-configurable MIME classification
sets of `default` (the `debug` and `operation` entries play no role in the
embedded core). -/
structure Vals where
  base64_mime_types : List (List Nat)
  qp_mime_types : List (List Nat)
  ignore_mime_types : List (List Nat)

/-- The `default` configuration of the module. -/
def defaultVals : Vals :=
  ⟨[sB "image/png", sB "image/x-icon"],
   [sB "text/css", sB "text/javascript"],
   [sB "application/rss+xml"]⟩

/-- MIME resolution for one image in the image loop of `get_url`:
`guess_type`, then `ext2mime(imghdr.what(...))`, then the final
`application/octet-stream` fallback. -/
def resolveImgMime (iurl contents : List Nat) : Except MErr (List Nat) :=
  match guess_type iurl with
  | some m => .ok m
  | none =>
    match ext2mime (imghdr_what contents) with
    | .error e => .error e
    | .ok (some m) => .ok m
    | .ok none => .ok (sB "application/octet-stream")

/-- Image loop of `get_url`: every image is appended with
`add_part("base64", ...)`, unconditionally on its resolved MIME type. -/
def imgParts (boundary : List Nat) : List (List Nat × List Nat) → Except MErr (List Nat)
  | [] => .ok []
  | (iurl, ic) :: rest =>
    match resolveImgMime iurl ic with
    | .error e => .error e
    | .ok mime =>
      match add_part (sB "base64") boundary mime iurl ic with
      | .error e => .error e
      | .ok part =>
        match imgParts boundary rest with
        | .error e => .error e
        | .ok out => .ok (part ++ out)

/-- Link loop of `get_url`: the declared MIME type is classified against the
three configured sets; base64 set members are base64 encoded, qp set members
quoted-printable encoded, ignore set members skipped, and anything else is
fatal (`Unknown mime type` + `sys.exit(-1)`). -/
def linkParts (vals : Vals) (boundary : List Nat) :
    List (List Nat × List Nat × List Nat) → Except MErr (List Nat)
  | [] => .ok []
  | (lurl, mime, lc) :: rest =>
    if mime ∈ vals.base64_mime_types then
      match add_part (sB "base64") boundary mime lurl lc with
      | .error e => .error e
      | .ok part =>
        match linkParts vals boundary rest with
        | .error e => .error e
        | .ok out => .ok (part ++ out)
    else if mime ∈ vals.qp_mime_types then
      match add_part (sB "quoted-printable") boundary mime lurl lc with
      | .error e => .error e
      | .ok part =>
        match linkParts vals boundary rest with
        | .error e => .error e
        | .ok out => .ok (part ++ out)
    else if mime ∈ vals.ignore_mime_types then linkParts vals boundary rest
    else .error .unknownMime

/-- Assembly core of `get_url`.  The external collaborators (network fetch,
BeautifulSoup markup scanning, `urljoin` absolutization, `time.time`) are
outside the embedded core, so their results are parameters: `title` and
`enc` from the markup scan, `main_page` the fetched root document bytes,
`timestamp` the `time.ctime` rendering, `t` the `time.localtime` fields,
`imgs` the fetched image resources, `links` the fetched linked resources
with their declared types. -/
def get_url (vals : Vals) (url title enc main_page timestamp : List Nat) (t : Tm)
    (imgs : List (List Nat × List Nat))
    (links : List (List Nat × List Nat × List Nat)) : Except MErr (List Nat) :=
  let boundary := mkBoundary t
  let out0 := add_header (q_encode title enc) timestamp boundary
  let content_type := sB "text/html; charset=\"" ++ enc ++ sB "\""
  match add_part (sB "quoted-printable") boundary content_type url main_page with
  | .error e => .error e
  | .ok rootPart =>
    match imgParts boundary imgs with
    | .error e => .error e
    | .ok imgOut =>
      match linkParts vals boundary links with
      | .error e => .error e
      | .ok linkOut =>
        .ok (out0 ++ rootPart ++ imgOut ++ linkOut ++ sB "\n--" ++ boundary ++ sB "--\n")

/-- Part record produced by the parser (the code returns the list
`[ctype, cenc, cloc, s]`). -/
structure PPart where
  content_type : List Nat
  transfer_encoding : List Nat
  content_location : List Nat
  body : List Nat
deriving DecidableEq, Repr

/-- Body extraction of `parse_part`:
`part.split("\n\n", 1)[1]`, falling back (via the bare `except`) to
`part.split("\n\r\n", 1)[1]`; `none` when both raise `IndexError`. -/
def splitAfterBlank (p : List Nat) : Option (List Nat) :=
  match searchCS (sB "\n\n") p with
  | some r => some r
  | none => searchCS (sB "\n\r\n") p

/-- Model of `parse_part(part)`: strip, extract the three header fields by
independent case-insensitive first-match regex searches, drop the segment
when the transfer encoding is empty, split off the body at the first blank
line (an unhandled `IndexError`, i.e. `crash`, when there is none), and
decode.  A nonempty unrecognized transfer encoding leaves the Python local
`s` unbound, raising `NameError` at `return`; this fatal failure is the
unsupported-encoding error of the specification. -/
def parse_part (part : List Nat) : Except MErr (Option PPart) :=
  let p := pstrip part
  let ctype := headerValue (sB "Content-Type: ") p
  let cenc := headerValue (sB "Content-Transfer-Encoding: ") p
  let cloc := headerValue (sB "Content-Location: ") p
  if cenc = [] then .ok none
  else
    match splitAfterBlank p with
    | none => .error .crash
    | some contents =>
      if cenc = sB "base64" then
        match b64Decode contents with
        | some s => .ok (some ⟨ctype, cenc, cloc, s⟩)
        | none => .error .crash
      else if cenc = sB "quoted-printable" then
        .ok (some ⟨ctype, cenc, cloc, qpDecode contents⟩)
      else .error .unsupportedEncoding

/-- Single match attempt of the boundary regex
`boundary *= *" *([^"]*) *` (case-insensitive) at the head of `s`:
the literal `boundary`, optional spaces, `=`, optional spaces, `"`, then
the group takes, after optional spaces, everything up to the next `"` or
the end of the input. -/
def bndAttempt (s : List Nat) : Option (List Nat) :=
  if isPreCI (sB "boundary") s then
    match (s.drop 8).dropWhile (fun c => c = 32) with
    | 61 :: r2 =>
      match r2.dropWhile (fun c => c = 32) with
      | 34 :: r4 => some ((r4.dropWhile (fun c => c = 32)).takeWhile (fun c => c ≠ 34))
      | _ => none
    | _ => none
  else none

/-- First match of the boundary regex over the whole input
(`re.search(bnd_pat, contents, re.I)` with the captured group). -/
def findBoundary : List Nat → Option (List Nat)
  | [] => none
  | c :: rest =>
    match bndAttempt (c :: rest) with
    | some cap => some cap
    | none => findBoundary rest

/-- Segment loop of `parse_file`: parts are collected in segment order,
dropped segments contribute nothing, and the first unhandled exception
aborts the whole parse. -/
def collectParts : List (List Nat) → Except MErr (List PPart)
  | [] => .ok []
  | seg :: rest =>
    match parse_part seg with
    | .error e => .error e
    | .ok r =>
      match collectParts rest with
      | .error e => .error e
      | .ok out =>
        match r with
        | none => .ok out
        | some p => .ok (p :: out)

/-- Model of `parse_file(vals, contents)` (the `vals` argument only controls
debug printing): find the boundary (its absence, including an empty capture,
returns `(-1, "no boundary")`), split the input on `"--" + boundary`, and
collect the parsed parts. -/
def parse_file (contents : List Nat) : Except MErr (List PPart) :=
  let bnd := (findBoundary contents).getD []
  if bnd = [] then .error .missingBoundary
  else collectParts (splitOnB (sB "--" ++ bnd) contents)

/-! ## Specification-side definitions

Definitions in this section restate what the specification describes, for
comparison with the code models above. -/

/-- Character-wise escaping of the Q-encoding specials, as the
specification words it: `?` and `_` become their hex-escaped forms. -/
def qSpecEsc (c : Nat) : List Nat :=
  if c = 63 then sB "=3F" else if c = 95 then sB "=5F" else [c]

/-- Character-wise mapping of every literal space to `_`, as the
specification words it. -/
def qSpecSpace (c : Nat) : List Nat := if c = 32 then sB "_" else [c]

/-- Q-encoded payload as the specification describes it: the
quoted-printable encoding of the UTF-8 bytes, with `?` and `_` escaped,
after which every literal space becomes `_`. -/
def qSpecPayload (s : List Nat) : List Nat :=
  (((qpEncode (utf8E s)).flatMap qSpecEsc).flatMap qSpecSpace)

/-! ## Assembled message decomposition

Definitions used to state the assemble/parse round trip: the text emitted
by `get_url` is the header block followed, for each part, by a newline, the
separator `--boundary`, and the part tail, and finally by the closing
`--boundary--` line. -/

/-- Boolean occurrence test for a case-insensitive literal pattern. -/
def occursInCI (pat s : List Nat) : Bool := (searchCI pat s).isSome

/-- Encoded body emitted by `add_part` for a supported scheme. -/
def encFor (sch body : List Nat) : List Nat :=
  if sch = sB "base64" then wrap76 (b64Encode body) else qpEncode body

/-- One assembled part: header block plus encoded body. -/
def partFull (sch boundary ct url body : List Nat) : List Nat :=
  partHeader sch boundary ct url ++ encFor sch body

/-- Text of one part after its `\n--boundary` separator prefix. -/
def partTail (sch ct url body : List Nat) : List Nat :=
  sB "\nContent-Type: " ++ ct ++
  sB "\nContent-Transfer-Encoding: " ++ sch ++
  sB "\nContent-Location: " ++ url ++ sB "\n\n" ++ encFor sch body

/-- Scheme chosen by the link loop of `get_url` for a classified MIME
type (the base64 set is consulted first). -/
def linkScheme (vals : Vals) (mime : List Nat) : List Nat :=
  if mime ∈ vals.base64_mime_types then sB "base64" else sB "quoted-printable"

/-- Multipart glue after the first separator: each segment text is followed
by a newline and the next separator, and the last separator is closed by
`--` and a newline. -/
def segsText (sep : List Nat) : List (List Nat) → List Nat
  | [] => sB "--\n"
  | x :: rest => x ++ [10] ++ sep ++ segsText sep rest

/-- One resource as supplied to the assembler: MIME type, location,
transfer-encoding scheme, and raw body. -/
structure Res where
  mime : List Nat
  url : List Nat
  sch : List Nat
  body : List Nat

/-- The part the parser is expected to recover for a resource. -/
def ppartOf (r : Res) : PPart := ⟨r.mime, r.sch, r.url, r.body⟩

/-- Tail text of the assembled part of a resource. -/
def tailOf (r : Res) : List Nat := partTail r.sch r.mime r.url r.body

/-- Header lines of one part without the blank line that ends them. -/
def hdrNoBlank (r : Res) : List Nat :=
  sB "Content-Type: " ++ r.mime ++
  sB "\nContent-Transfer-Encoding: " ++ r.sch ++
  sB "\nContent-Location: " ++ r.url

/-- Whether a text is nonempty and does not end in whitespace. -/
def lastNonWs (s : List Nat) : Bool :=
  match s.getLast? with
  | some c => !isWsB c
  | none => false

/-- Well-formedness of one resource for an exact reparse: a supported
scheme (with a carriage-return-free body when quoted-printable), a
byte-valued body, MIME type and location free of line feeds and of
surrounding whitespace, no stray case-insensitive occurrence of a later
header pattern inside an earlier header line, no blank line inside the
header lines, and an encoded body that is nonempty and does not end in
whitespace (the segment strip of the parser would otherwise eat into
it). -/
def resOK (r : Res) : Bool :=
  (r.sch == sB "base64" || (r.sch == sB "quoted-printable" && !decide (13 ∈ r.body))) &&
  r.body.all (fun c => decide (c < 256)) &&
  !decide (10 ∈ r.mime) && (pstrip r.mime == r.mime) &&
  !decide (10 ∈ r.url) && (pstrip r.url == r.url) &&
  !occursInCI (sB "Content-Transfer-Encoding: ") (sB "Content-Type: " ++ r.mime) &&
  !occursInCI (sB "Content-Location: ") (sB "Content-Type: " ++ r.mime) &&
  !occursInCI (sB "Content-Location: ") (sB "Content-Transfer-Encoding: " ++ r.sch) &&
  !occursIn (sB "\n\n") (hdrNoBlank r ++ [10]) &&
  lastNonWs (encFor r.sch r.body)

/-- The root document as a resource: quoted-printable, with the charset
annotated content type built by `get_url`. -/
def rootRes (url0 enc0 mp : List Nat) : Res :=
  ⟨sB "text/html; charset=\"" ++ enc0 ++ sB "\"", url0, sB "quoted-printable", mp⟩

/-- The full text `get_url` assembles, in split-ready grouping: header
block and trailing newline, then the separator, then the glued part
tails. -/
def mhtmlText (title enc0 timestamp : List Nat) (t : Tm) (rs : List Res) : List Nat :=
  (add_header (q_encode title enc0) timestamp (mkBoundary t) ++ [10]) ++
  ((sB "--" ++ mkBoundary t) ++ segsText (sB "--" ++ mkBoundary t) (rs.map tailOf))

/-- Non-hyphen tail of the separator `--` + boundary. -/
def bTail (t : Tm) : List Nat :=
  sB "=_NextPart_" ++ padZ 4 t.year ++ padZ 2 t.month ++ padZ 2 t.day ++
  sB "_" ++ padZ 2 t.hour ++ padZ 2 t.min ++ padZ 2 t.sec

/-! ## Basic lemmas -/

theorem reSub1_eq_flatMap (p : Nat) (r : List Nat) :
    ∀ l : List Nat, reSub1 p r l = l.flatMap (fun c => if c = p then r else [c]) := by
  intro l
  induction l with
  | nil => rfl
  | cons c t ih =>
    simp only [reSub1, List.flatMap_cons, ih]
    split <;> simp

theorem reSub1_append (p : Nat) (r : List Nat) (a b : List Nat) :
    reSub1 p r (a ++ b) = reSub1 p r a ++ reSub1 p r b := by
  simp [reSub1_eq_flatMap]

/-! ## Round trip of the quoted-printable codec on CR-free inputs -/

theorem isHexB_ne {c : Nat} (h : isHexB c = true) : c ≠ 10 ∧ c ≠ 13 ∧ c ≠ 61 := by
  simp only [isHexB, Bool.or_eq_true, Bool.and_eq_true, decide_eq_true_eq] at h
  omega

theorem hexDigU_isHex : ∀ n < 16, isHexB (hexDigU n) = true := by decide

theorem hexValB_hexDigU : ∀ n < 16, hexValB (hexDigU n) = n := by decide

theorem hexDigU_ne61 : ∀ n < 16, hexDigU n ≠ 61 := by decide

/-- Strings assembled from the atomic tokens the quoted-printable encoder
emits: literal characters other than `=`, hex escapes `=XY`, and soft line
breaks `=` + LF. -/
inductive Toks : List Nat → Prop where
  | nil : Toks []
  | lit (c : Nat) (hc : c ≠ 61) {t : List Nat} (ht : Toks t) : Toks (t ++ [c])
  | esc (h1 h2 : Nat) (hh1 : isHexB h1 = true) (hh2 : isHexB h2 = true)
      {t : List Nat} (ht : Toks t) : Toks (t ++ [61, h1, h2])
  | soft {t : List Nat} (ht : Toks t) : Toks (t ++ [61, 10])

theorem qpDecGo_lit (c : Nat) (hc : c ≠ 61) (y : List Nat) :
    qpDecGo (c :: y) .normal = c :: qpDecGo y .normal := by
  simp [qpDecGo, hc]

theorem qpDecGo_esc (h1 h2 : Nat) (hh1 : isHexB h1 = true) (hh2 : isHexB h2 = true)
    (y : List Nat) :
    qpDecGo (61 :: h1 :: h2 :: y) .normal =
      (16 * hexValB h1 + hexValB h2) :: qpDecGo y .normal := by
  obtain ⟨e10, e13, e61⟩ := isHexB_ne hh1
  simp [qpDecGo, e10, e13, e61, hh1, hh2]

theorem qpDecGo_soft (y : List Nat) :
    qpDecGo (61 :: 10 :: y) .normal = qpDecGo y .normal := by
  simp [qpDecGo]

theorem qpDecGo_toks_append {x : List Nat} (hx : Toks x) :
    ∀ y, qpDecGo (x ++ y) .normal = qpDecGo x .normal ++ qpDecGo y .normal := by
  induction hx with
  | nil => intro y; simp [qpDecGo]
  | lit c hc ht ih =>
    intro y
    rw [List.append_assoc]
    rw [ih ([c] ++ y), ih [c]]
    rw [show ([c] : List Nat) ++ y = c :: y from rfl, qpDecGo_lit c hc y]
    have h1 : qpDecGo [c] .normal = [c] := by simpa using qpDecGo_lit c hc []
    rw [h1, List.append_assoc]
    rfl
  | esc h1 h2 hh1 hh2 ht ih =>
    intro y
    rw [List.append_assoc]
    rw [ih ([61, h1, h2] ++ y), ih [61, h1, h2]]
    rw [show ([61, h1, h2] : List Nat) ++ y = 61 :: h1 :: h2 :: y from rfl,
      qpDecGo_esc h1 h2 hh1 hh2 y]
    have hq : qpDecGo [61, h1, h2] .normal = [16 * hexValB h1 + hexValB h2] := by
      simpa using qpDecGo_esc h1 h2 hh1 hh2 []
    rw [hq, List.append_assoc]
    rfl
  | soft ht ih =>
    intro y
    rw [List.append_assoc]
    rw [ih ([61, 10] ++ y), ih [61, 10]]
    rw [show ([61, 10] : List Nat) ++ y = 61 :: 10 :: y from rfl, qpDecGo_soft y]
    have hs : qpDecGo [61, 10] .normal = [] := by simpa using qpDecGo_soft []
    rw [hs, List.append_assoc]
    rfl

theorem snoc_inj {t t2 : List Nat} {c c2 : Nat} (h : t ++ [c] = t2 ++ [c2]) :
    t = t2 ∧ c = c2 := by
  have h2 := congrArg List.reverse h
  simp only [List.reverse_append, List.reverse_cons, List.reverse_nil, List.nil_append,
    List.cons_append, List.cons.injEq] at h2
  obtain ⟨rfl, h2⟩ := h2
  exact ⟨by simpa using congrArg List.reverse h2, rfl⟩

theorem toks_snoc_ws_inv_aux {x : List Nat} (h : Toks x) :
    ∀ {t : List Nat} {c : Nat}, x = t ++ [c] → c = 32 ∨ c = 9 → Toks t := by
  cases h with
  | nil =>
    intro t c he _
    exact absurd he.symm (by simp)
  | lit c2 hc2 ht =>
    intro t c he _
    obtain ⟨rfl, rfl⟩ := snoc_inj he
    exact ht
  | esc h1 h2 hh1 hh2 ht =>
    intro t c he hc
    rw [show ∀ t2 : List Nat, t2 ++ [61, h1, h2] = (t2 ++ [61, h1]) ++ [h2] by
      intro t2; simp] at he
    obtain ⟨-, rfl⟩ := snoc_inj he
    rcases hc with rfl | rfl <;> simp [isHexB] at hh2
  | soft ht =>
    intro t c he hc
    rw [show ∀ t2 : List Nat, t2 ++ [61, 10] = (t2 ++ [61]) ++ [10] by
      intro t2; simp] at he
    obtain ⟨-, rfl⟩ := snoc_inj he
    rcases hc with h | h <;> simp at h

/-- Inversion of `Toks` at a trailing space or tab: the last token must be
that literal, so the front is itself token-clean. -/
theorem toks_snoc_ws_inv {t : List Nat} {c : Nat} (hc : c = 32 ∨ c = 9)
    (h : Toks (t ++ [c])) : Toks t :=
  toks_snoc_ws_inv_aux h rfl hc

/-- The end-of-line whitespace protection preserves token-cleanliness and
the decoded value of the output accumulated so far. -/
theorem toks_wsFix {racc : List Nat} (ht : Toks racc.reverse) :
    Toks ((wsFix racc).reverse) ∧
      qpDecGo ((wsFix racc).reverse) .normal = qpDecGo racc.reverse .normal := by
  match racc with
  | [] => exact ⟨ht, rfl⟩
  | p :: t =>
    by_cases hp : p = 32 ∨ p = 9
    · rw [List.reverse_cons] at ht
      have ht2 : Toks t.reverse := toks_snoc_ws_inv hp ht
      rcases hp with rfl | rfl
      · have hw : wsFix (32 :: t) = 48 :: 50 :: 61 :: t := by norm_num [wsFix, hexDigU]
        rw [hw]
        have hrev : (48 :: 50 :: 61 :: t).reverse = t.reverse ++ [61, 50, 48] := by simp
        rw [hrev]
        refine ⟨Toks.esc 50 48 (by decide) (by decide) ht2, ?_⟩
        rw [qpDecGo_toks_append ht2 [61, 50, 48], List.reverse_cons,
          qpDecGo_toks_append ht2 [32]]
        norm_num [qpDecGo, isHexB, hexValB]
      · have hw : wsFix (9 :: t) = 57 :: 48 :: 61 :: t := by norm_num [wsFix, hexDigU]
        rw [hw]
        have hrev : (57 :: 48 :: 61 :: t).reverse = t.reverse ++ [61, 48, 57] := by simp
        rw [hrev]
        refine ⟨Toks.esc 48 57 (by decide) (by decide) ht2, ?_⟩
        rw [qpDecGo_toks_append ht2 [61, 48, 57], List.reverse_cons,
          qpDecGo_toks_append ht2 [9]]
        norm_num [qpDecGo, isHexB, hexValB]
    · have h32 : p ≠ 32 := fun h => hp (Or.inl h)
      have h9 : p ≠ 9 := fun h => hp (Or.inr h)
      have hw : wsFix (p :: t) = p :: t := by simp [wsFix, h32, h9]
      rw [hw]
      exact ⟨ht, rfl⟩

theorem needsQuote_61 (next : Option Nat) (ll : Nat) : needsQuote 61 next ll = true := by
  simp [needsQuote]

theorem detectCRLF_no13 (b : List Nat) (h : 13 ∉ b) : detectCRLF b = false := by
  induction b with
  | nil => rfl
  | cons c rest ih =>
    have hc : c ≠ 13 := fun hh => h (by simp [hh])
    by_cases h10 : c = 10
    · subst h10
      exact detectCRLF.eq_3 rest
    · rw [detectCRLF.eq_4 c rest (fun r h13 _ => absurd h13 hc) (fun hh => absurd hh h10)]
      exact ih (fun hh => h (List.mem_cons_of_mem _ hh))

/-- Decoding the encoder output appended to token-clean accumulated output
recovers the accumulated value followed by the remaining input, for CR-free
byte input and the LF line-end convention. -/
theorem qpEncGo_dec (input : List Nat) :
    (∀ c ∈ input, c < 256) → 13 ∉ input →
      ∀ (ll : Nat) (racc : List Nat), Toks racc.reverse →
        qpDecGo (qpEncGo false input ll racc) .normal =
          qpDecGo racc.reverse .normal ++ input := by
  induction input with
  | nil =>
    intro _ _ ll racc ht
    rw [qpEncGo.eq_1]
    simp
  | cons c rest ih =>
    intro hlt hcr ll racc ht
    have hc13 : c ≠ 13 := fun h => hcr (by simp [h])
    have hcr2 : 13 ∉ rest := fun h => hcr (List.mem_cons_of_mem _ h)
    have hlt2 : ∀ x ∈ rest, x < 256 := fun x hx => hlt x (List.mem_cons_of_mem _ hx)
    have hltc : c < 256 := hlt c (List.mem_cons_self _ _)
    by_cases hc10 : c = 10
    · subst hc10
      rw [qpEncGo.eq_3]
      have hfix := toks_wsFix ht
      have hnl : nlPush false (wsFix racc) = 10 :: wsFix racc := rfl
      have htok : Toks ((nlPush false (wsFix racc)).reverse) := by
        rw [hnl, List.reverse_cons]
        exact Toks.lit 10 (by decide) hfix.1
      rw [ih hlt2 hcr2 0 _ htok, hnl, List.reverse_cons,
        qpDecGo_toks_append hfix.1 [10], hfix.2]
      have h1 : qpDecGo [10] .normal = [10] := by decide
      rw [h1]
      simp
    · rw [qpEncGo.eq_4 false ll racc c rest
        (fun r h13 _ => absurd h13 hc13) (fun h => absurd h hc10)]
      by_cases hq : needsQuote c rest.head? ll = true
      · rw [if_pos hq]
        have hd1 : isHexB (hexDigU (c / 16)) = true := hexDigU_isHex _ (by omega)
        have hd2 : isHexB (hexDigU (c % 16)) = true := hexDigU_isHex _ (by omega)
        have hdec : qpDecGo (61 :: hexDigU (c / 16) :: hexDigU (c % 16) :: []) .normal = [c] := by
          rw [qpDecGo_esc _ _ hd1 hd2,
            hexValB_hexDigU _ (by omega), hexValB_hexDigU _ (by omega)]
          have hc16 : 16 * (c / 16) + c % 16 = c := by omega
          rw [hc16]
          rfl
        by_cases hb : ll + 3 ≥ 76
        · rw [if_pos hb]
          have hsb : softBreak false racc = 10 :: 61 :: racc := rfl
          have hrev :
              (hexDigU (c % 16) :: hexDigU (c / 16) :: 61 :: softBreak false racc).reverse =
                (racc.reverse ++ [61, 10]) ++ [61, hexDigU (c / 16), hexDigU (c % 16)] := by
            rw [hsb]
            simp
          have htok : Toks ((hexDigU (c % 16) :: hexDigU (c / 16) :: 61 ::
              softBreak false racc).reverse) := by
            rw [hrev]
            exact Toks.esc _ _ hd1 hd2 (Toks.soft ht)
          rw [ih hlt2 hcr2 3 _ htok, hrev,
            qpDecGo_toks_append (Toks.soft ht) _, qpDecGo_toks_append ht _]
          have h0 : qpDecGo [61, 10] .normal = [] := by decide
          rw [h0, hdec]
          simp
        · rw [if_neg hb]
          have hrev : (hexDigU (c % 16) :: hexDigU (c / 16) :: 61 :: racc).reverse =
              racc.reverse ++ [61, hexDigU (c / 16), hexDigU (c % 16)] := by simp
          have htok : Toks ((hexDigU (c % 16) :: hexDigU (c / 16) :: 61 :: racc).reverse) := by
            rw [hrev]
            exact Toks.esc _ _ hd1 hd2 ht
          rw [ih hlt2 hcr2 (ll + 3) _ htok, hrev, qpDecGo_toks_append ht _, hdec]
          simp
      · rw [if_neg hq]
        have hc61 : c ≠ 61 := fun h => by
          subst h
          exact hq (needsQuote_61 _ _)
        by_cases hb : (rest ≠ [] && rest.head? != some 10 && decide (ll + 1 ≥ 76)) = true
        · rw [if_pos hb]
          have hrev : (c :: softBreak false racc).reverse =
              (racc.reverse ++ [61, 10]) ++ [c] := by
            rw [show softBreak false racc = 10 :: 61 :: racc from rfl]
            simp
          have htok : Toks ((c :: softBreak false racc).reverse) := by
            rw [hrev]
            exact Toks.lit c hc61 (Toks.soft ht)
          rw [ih hlt2 hcr2 1 _ htok, hrev,
            qpDecGo_toks_append (Toks.soft ht) _, qpDecGo_toks_append ht _]
          have h0 : qpDecGo [61, 10] .normal = [] := by decide
          have h1 : qpDecGo [c] .normal = [c] := by simpa using qpDecGo_lit c hc61 []
          rw [h0, h1]
          simp
        · rw [if_neg hb]
          have hrev : (c :: racc).reverse = racc.reverse ++ [c] := by simp
          have htok : Toks ((c :: racc).reverse) := by
            rw [hrev]
            exact Toks.lit c hc61 ht
          rw [ih hlt2 hcr2 (ll + 1) _ htok, hrev, qpDecGo_toks_append ht _]
          have h1 : qpDecGo [c] .normal = [c] := by simpa using qpDecGo_lit c hc61 []
          rw [h1]
          simp

/-- Round trip of the quoted-printable codec on CR-free byte sequences. -/
theorem qp_roundtrip (b : List Nat) (hb : ∀ c ∈ b, c < 256) (hcr : 13 ∉ b) :
    qpDecode (qpEncode b) = b := by
  unfold qpEncode qpDecode
  rw [detectCRLF_no13 b hcr]
  simpa using qpEncGo_dec b hb hcr 0 [] Toks.nil

/-! ## Round trip of the base64 codec -/

theorem b64Val_b64Chr : ∀ n < 64, b64Val (b64Chr n) = some n := by decide

theorem b64Chr_ne_61 : ∀ n < 64, b64Chr n ≠ 61 := by decide

theorem b64Chr_ne_10 : ∀ n < 64, b64Chr n ≠ 10 := by decide

/-- One decoder step on an alphabet character, at each group position. -/
theorem b64DecGo_chr0 (v : Nat) (hv : v < 64) (r : List Nat) (bits : Nat) :
    b64DecGo (b64Chr v :: r) 0 bits = b64DecGo r 1 v := by
  have h61 := b64Chr_ne_61 v hv
  have hval := b64Val_b64Chr v hv
  simp only [b64DecGo, if_neg h61, hval]

theorem b64DecGo_chr1 (v : Nat) (hv : v < 64) (r : List Nat) (bits : Nat) :
    b64DecGo (b64Chr v :: r) 1 bits =
      (b64DecGo r 2 (v % 16)).map (fun out => (bits * 4 + v / 16) :: out) := by
  have h61 := b64Chr_ne_61 v hv
  have hval := b64Val_b64Chr v hv
  simp only [b64DecGo, if_neg h61, hval]

theorem b64DecGo_chr2 (v : Nat) (hv : v < 64) (r : List Nat) (bits : Nat) :
    b64DecGo (b64Chr v :: r) 2 bits =
      (b64DecGo r 3 (v % 4)).map (fun out => (bits * 16 + v / 4) :: out) := by
  have h61 := b64Chr_ne_61 v hv
  have hval := b64Val_b64Chr v hv
  simp only [b64DecGo, if_neg h61, hval]

theorem b64DecGo_chr3 (v : Nat) (hv : v < 64) (r : List Nat) (bits : Nat) :
    b64DecGo (b64Chr v :: r) 3 bits =
      (b64DecGo r 0 0).map (fun out => (bits * 64 + v) :: out) := by
  have h61 := b64Chr_ne_61 v hv
  have hval := b64Val_b64Chr v hv
  simp only [b64DecGo, if_neg h61, hval]

/-- Decoding the unwrapped four-character groups of the encoder recovers the
input bytes. -/
theorem b64DecGo_enc (b : List Nat) (hb : ∀ c ∈ b, c < 256) :
    b64DecGo (b64Encode b) 0 0 = some b := by
  induction b using b64Encode.induct with
  | case1 => rfl
  | case2 x =>
    have hx : x < 256 := hb x (by simp)
    simp only [b64Encode]
    rw [b64DecGo_chr0 (x / 4) (by omega) _ 0,
      b64DecGo_chr1 (x % 4 * 16) (by omega) _ (x / 4)]
    have hpad : b64DecGo [61, 61] 2 (x % 4 * 16 % 16) = some [] := by
      simp [b64DecGo, b64NextValid]
    rw [hpad]
    simp only [Option.map_some', Option.some.injEq, List.cons.injEq, and_true]
    omega
  | case3 x y =>
    have hx : x < 256 := hb x (by simp)
    have hy : y < 256 := hb y (by simp)
    simp only [b64Encode]
    rw [b64DecGo_chr0 (x / 4) (by omega) _ 0,
      b64DecGo_chr1 (x % 4 * 16 + y / 16) (by omega) _ (x / 4),
      b64DecGo_chr2 (y % 16 * 4) (by omega) _ ((x % 4 * 16 + y / 16) % 16)]
    have hpad : b64DecGo [61] 3 (y % 16 * 4 % 4) = some [] := by
      simp [b64DecGo]
    rw [hpad]
    simp only [Option.map_some', Option.some.injEq, List.cons.injEq, and_true]
    omega
  | case4 x y z r ih =>
    have hx : x < 256 := hb x (by simp)
    have hy : y < 256 := hb y (by simp)
    have hz : z < 256 := hb z (by simp)
    have hr : ∀ c ∈ r, c < 256 := fun c hc => hb c (by simp [hc])
    simp only [b64Encode]
    rw [b64DecGo_chr0 (x / 4) (by omega) _ 0,
      b64DecGo_chr1 (x % 4 * 16 + y / 16) (by omega) _ (x / 4),
      b64DecGo_chr2 (y % 16 * 4 + z / 64) (by omega) _ ((x % 4 * 16 + y / 16) % 16),
      b64DecGo_chr3 (z % 64) (by omega) _ ((y % 16 * 4 + z / 64) % 4)]
    rw [ih hr]
    simp only [Option.map_some', Option.some.injEq, List.cons.injEq, and_true]
    omega

/-- The first valid character is unaffected by discarding newlines. -/
theorem b64NextValid_filter (s : List Nat) :
    b64NextValid (s.filter (fun c => c ≠ 10)) = b64NextValid s := by
  induction s with
  | nil => rfl
  | cons c r ih =>
    by_cases hc : c = 10
    · subst hc
      have : b64NextValid (10 :: r) = b64NextValid r := by
        simp [b64NextValid, b64Val]
      rw [this, List.filter_cons]
      simpa using ih
    · rw [show List.filter (fun c => c ≠ 10) (c :: r) =
          c :: List.filter (fun c => c ≠ 10) r from by simp [hc]]
      unfold b64NextValid
      split <;> simp_all

/-- The decoder ignores newline characters wherever they occur. -/
theorem b64DecGo_filter (s : List Nat) :
    ∀ quad bits, b64DecGo (s.filter (fun c => c ≠ 10)) quad bits = b64DecGo s quad bits := by
  induction s with
  | nil => intro quad bits; rfl
  | cons c r ih =>
    intro quad bits
    by_cases hc : c = 10
    · subst hc
      have h1 : b64DecGo (10 :: r) quad bits = b64DecGo r quad bits := by
        simp [b64DecGo, b64Val]
      rw [h1, List.filter_cons]
      simpa using ih quad bits
    · rw [show List.filter (fun c => c ≠ 10) (c :: r) =
          c :: List.filter (fun c => c ≠ 10) r from by simp [hc]]
      simp only [b64DecGo, b64NextValid_filter, ih]

theorem chunks76_flatten (fuel : Nat) :
    ∀ s : List Nat, s.length ≤ fuel → (chunks76 fuel s).flatten = s := by
  induction fuel with
  | zero =>
    intro s hs
    cases s with
    | nil => rfl
    | cons c t => simp at hs
  | succ n ih =>
    intro s hs
    match s with
    | [] => rfl
    | c :: t =>
      simp only [chunks76, List.flatten_cons]
      have hlen : ((c :: t).drop 76).length ≤ n := by
        simp only [List.length_drop, List.length_cons]
        simp only [List.length_cons] at hs
        omega
      rw [ih ((c :: t).drop 76) hlen]
      exact List.take_append_drop 76 (c :: t)

theorem intercalate_nl_filter (L : List (List Nat)) :
    (List.intercalate [10] L).filter (fun c => c ≠ 10) =
      L.flatten.filter (fun c => c ≠ 10) := by
  induction L with
  | nil => rfl
  | cons l ls ih =>
    match ls with
    | [] => simp [List.intercalate]
    | l2 :: ls2 =>
      have h1 : List.intercalate [10] (l :: l2 :: ls2) =
          l ++ [10] ++ List.intercalate [10] (l2 :: ls2) := by
        simp [List.intercalate, List.intersperse]
      rw [h1]
      simp only [List.filter_append, List.flatten_cons, ih]
      simp

theorem b64Encode_no10 (b : List Nat) (hb : ∀ c ∈ b, c < 256) : 10 ∉ b64Encode b := by
  induction b using b64Encode.induct with
  | case1 => simp [b64Encode]
  | case2 x =>
    have hx : x < 256 := hb x (by simp)
    simp only [b64Encode, List.mem_cons]
    push_neg
    refine ⟨(b64Chr_ne_10 _ (by omega)).symm, (b64Chr_ne_10 _ (by omega)).symm, by simp⟩
  | case3 x y =>
    have hx : x < 256 := hb x (by simp)
    have hy : y < 256 := hb y (by simp)
    simp only [b64Encode, List.mem_cons]
    push_neg
    refine ⟨(b64Chr_ne_10 _ (by omega)).symm, (b64Chr_ne_10 _ (by omega)).symm,
      (b64Chr_ne_10 _ (by omega)).symm, by simp⟩
  | case4 x y z r ih =>
    have hx : x < 256 := hb x (by simp)
    have hy : y < 256 := hb y (by simp)
    have hz : z < 256 := hb z (by simp)
    have hr : ∀ c ∈ r, c < 256 := fun c hc => hb c (by simp [hc])
    simp only [b64Encode, List.mem_cons]
    push_neg
    refine ⟨(b64Chr_ne_10 _ (by omega)).symm, (b64Chr_ne_10 _ (by omega)).symm,
      (b64Chr_ne_10 _ (by omega)).symm, (b64Chr_ne_10 _ (by omega)).symm, ih hr⟩

/-- Round trip of the base64 codec through the 76-column wrapping of
`add_part` and the newline-tolerant decoder. -/
theorem b64_roundtrip (b : List Nat) (hb : ∀ c ∈ b, c < 256) :
    b64Decode (wrap76 (b64Encode b)) = some b := by
  unfold b64Decode wrap76
  rw [← b64DecGo_filter, intercalate_nl_filter, chunks76_flatten _ _ le_rfl]
  rw [List.filter_eq_self.mpr ?all]
  · exact b64DecGo_enc b hb
  · intro c hc
    simp only [ne_eq, decide_eq_true_eq]
    intro h
    subst h
    exact b64Encode_no10 b hb hc

/-! ## Physical line lengths -/

theorem lineLens_ne_nil (s : List Nat) : lineLens s ≠ [] := by
  induction s with
  | nil => simp [lineLens]
  | cons c r ih =>
    by_cases hc : c = 10
    · subst hc
      simp [lineLens]
    · rw [lineLens.eq_3 c r (fun h => absurd h hc)]
      split <;> simp

theorem lineLens_cons10 (r : List Nat) : lineLens (10 :: r) = 0 :: lineLens r := rfl

theorem lineLens_cons (c : Nat) (r : List Nat) (hc : c ≠ 10) (n : Nat) (ns : List Nat)
    (h : lineLens r = n :: ns) : lineLens (c :: r) = (n + 1) :: ns := by
  rw [lineLens.eq_3 c r (fun hh => absurd hh hc), h]

theorem lineLens_head (r : List Nat) : ∃ n ns, lineLens r = n :: ns := by
  rcases h : lineLens r with _ | ⟨n, ns⟩
  · exact absurd h (lineLens_ne_nil r)
  · exact ⟨n, ns, rfl⟩

theorem lineLens_snoc10 (s : List Nat) : lineLens (s ++ [10]) = lineLens s ++ [0] := by
  induction s with
  | nil => rfl
  | cons c r ih =>
    by_cases hc : c = 10
    · subst hc
      rw [List.cons_append, lineLens_cons10, ih, lineLens_cons10, List.cons_append]
    · obtain ⟨n, ns, hr⟩ := lineLens_head r
      have h2 : lineLens (r ++ [10]) = n :: (ns ++ [0]) := by
        rw [ih, hr, List.cons_append]
      rw [List.cons_append, lineLens_cons c _ hc n (ns ++ [0]) h2,
        lineLens_cons c r hc n ns hr, List.cons_append]

theorem lineLens_snoc_of (c : Nat) (hc : c ≠ 10) :
    ∀ (s ns : List Nat) (n : Nat), lineLens s = ns ++ [n] →
      lineLens (s ++ [c]) = ns ++ [n + 1] := by
  intro s
  induction s with
  | nil =>
    intro ns n h
    have h0 : lineLens ([] : List Nat) = [0] := rfl
    rw [h0] at h
    cases ns with
    | nil =>
      simp only [List.nil_append, List.cons.injEq] at h
      rw [List.nil_append, lineLens.eq_3 c [] (fun hh => absurd hh hc)]
      rw [← h.1]
      rfl
    | cons a t =>
      simp only [List.cons_append, List.cons.injEq] at h
      exact absurd h.2.symm (by simp)
  | cons a t ih =>
    intro ns n h
    by_cases ha : a = 10
    · subst ha
      rw [lineLens_cons10] at h
      cases ns with
      | nil =>
        simp only [List.nil_append, List.cons.injEq] at h
        exact absurd h.2 (lineLens_ne_nil t)
      | cons b ns2 =>
        rw [List.cons_append, List.cons.injEq] at h
        obtain ⟨rfl, h2⟩ := h
        rw [List.cons_append, lineLens_cons10, ih ns2 n h2, List.cons_append]
    · obtain ⟨m, ms, hmt⟩ := lineLens_head t
      rw [lineLens_cons a t ha m ms hmt] at h
      cases ns with
      | nil =>
        simp only [List.nil_append, List.cons.injEq] at h
        obtain ⟨hn, rfl⟩ := h
        have ht2 : lineLens (t ++ [c]) = [m + 1] :=
          ih [] m (by rw [hmt]; rfl)
        rw [List.cons_append, lineLens_cons a _ ha (m + 1) [] ht2,
          List.nil_append, ← hn]
      | cons b ns2 =>
        rw [List.cons_append, List.cons.injEq] at h
        obtain ⟨rfl, h2⟩ := h
        have ht2 : lineLens (t ++ [c]) = (m :: ns2) ++ [n + 1] :=
          ih (m :: ns2) n (by rw [hmt, h2, List.cons_append])
        rw [List.cons_append,
          lineLens_cons a _ ha m (ns2 ++ [n + 1]) (by rw [ht2, List.cons_append]),
          List.cons_append]

theorem lineLens_reverse (s : List Nat) : lineLens s.reverse = (lineLens s).reverse := by
  induction s with
  | nil => rfl
  | cons c t ih =>
    rw [List.reverse_cons]
    by_cases hc : c = 10
    · subst hc
      rw [lineLens_snoc10, ih, lineLens_cons10, List.reverse_cons]
    · obtain ⟨m, ms, hmt⟩ := lineLens_head t
      have hdec : lineLens t.reverse = ms.reverse ++ [m] := by
        rw [ih, hmt, List.reverse_cons]
      rw [lineLens_snoc_of c hc t.reverse ms.reverse m hdec,
        lineLens_cons c t hc m ms hmt, List.reverse_cons]

theorem lineLens_no10 (l : List Nat) (h : 10 ∉ l) : lineLens l = [l.length] := by
  induction l with
  | nil => rfl
  | cons c r ih =>
    have hc : c ≠ 10 := fun hh => h (by simp [hh])
    rw [lineLens_cons c r hc r.length []
      (ih (fun hh => h (List.mem_cons_of_mem _ hh)))]
    rfl

theorem lineLens_append_nl (l rest : List Nat) (h : 10 ∉ l) :
    lineLens (l ++ 10 :: rest) = l.length :: lineLens rest := by
  induction l with
  | nil => rfl
  | cons c t ih =>
    have hc : c ≠ 10 := fun hh => h (by simp [hh])
    rw [List.cons_append,
      lineLens_cons c _ hc t.length (lineLens rest)
        (ih (fun hh => h (List.mem_cons_of_mem _ hh)))]
    rfl

theorem lineLens_intercalate (L : List (List Nat)) (hne : L ≠ [])
    (h10 : ∀ l ∈ L, 10 ∉ l) :
    lineLens (List.intercalate [10] L) = L.map List.length := by
  induction L with
  | nil => exact absurd rfl hne
  | cons l ls ih =>
    match ls with
    | [] =>
      rw [show List.intercalate [10] [l] = l by simp [List.intercalate]]
      rw [lineLens_no10 l (h10 l (by simp))]
      rfl
    | l2 :: ls2 =>
      have h1 : List.intercalate [10] (l :: l2 :: ls2) =
          l ++ 10 :: List.intercalate [10] (l2 :: ls2) := by
        simp [List.intercalate, List.intersperse]
      rw [h1, lineLens_append_nl l _ (h10 l (by simp)),
        ih (by simp) (fun x hx => h10 x (List.mem_cons_of_mem _ hx))]
      rfl

theorem chunks76_mem_le (fuel : Nat) :
    ∀ (s l : List Nat), l ∈ chunks76 fuel s → l.length ≤ 76 := by
  induction fuel with
  | zero => intro s l h; simp [chunks76] at h
  | succ n ih =>
    intro s l h
    cases s with
    | nil => simp [chunks76] at h
    | cons c t =>
      simp only [chunks76, List.mem_cons] at h
      rcases h with rfl | h
      · exact List.length_take_le 76 (c :: t)
      · exact ih _ l h

theorem chunks76_mem_sub (fuel : Nat) :
    ∀ (s l : List Nat), l ∈ chunks76 fuel s → ∀ c ∈ l, c ∈ s := by
  induction fuel with
  | zero => intro s l h; simp [chunks76] at h
  | succ n ih =>
    intro s l h c hc
    cases s with
    | nil => simp [chunks76] at h
    | cons a t =>
      simp only [chunks76, List.mem_cons] at h
      rcases h with rfl | h
      · exact List.mem_of_mem_take hc
      · exact List.mem_of_mem_drop (ih _ l h c hc)

theorem chunks76_nil (fuel : Nat) : chunks76 fuel [] = [] := by
  cases fuel <;> rfl

theorem chunks76_dropLast (fuel : Nat) :
    ∀ s : List Nat, ∀ l ∈ (chunks76 fuel s).dropLast, l.length = 76 := by
  induction fuel with
  | zero => intro s l h; simp [chunks76] at h
  | succ n ih =>
    intro s l h
    cases s with
    | nil => simp [chunks76] at h
    | cons a t =>
      simp only [chunks76] at h
      rcases hrec : chunks76 n ((a :: t).drop 76) with _ | ⟨x, L⟩
      · rw [hrec] at h
        simp at h
      · rw [hrec, List.dropLast_cons₂, List.mem_cons] at h
        rcases h with rfl | h
        · have hd : (a :: t).drop 76 ≠ [] := by
            intro hh
            rw [hh, chunks76_nil] at hrec
            exact absurd hrec.symm (by simp)
          have hlen : 77 ≤ t.length + 1 := by
            by_contra hlen2
            refine hd (List.drop_eq_nil_of_le ?_)
            simp only [List.length_cons]
            omega
          simp only [List.length_take, List.length_cons]
          omega
        · exact ih _ l (by rw [hrec]; exact h)

/-! ## Prefix and occurrence toolbox -/

theorem isPre_self_append (p b : List Nat) : isPre p (p ++ b) = true := by
  induction p with
  | nil => rfl
  | cons c t ih => simpa [isPre] using ih

theorem isPre_exists {p s : List Nat} (h : isPre p s = true) : ∃ t, s = p ++ t := by
  induction p generalizing s with
  | nil => exact ⟨s, rfl⟩
  | cons c t ih =>
    cases s with
    | nil => simp [isPre] at h
    | cons d u =>
      simp only [isPre, Bool.and_eq_true, beq_iff_eq] at h
      obtain ⟨rfl, h2⟩ := h
      obtain ⟨z, rfl⟩ := ih h2
      exact ⟨z, rfl⟩

theorem isPre_of_append {p a : List Nat} (z : List Nat) (h : isPre p (a ++ z) = true)
    (hlen : p.length ≤ a.length) : isPre p a = true := by
  induction p generalizing a with
  | nil => rfl
  | cons c t ih =>
    cases a with
    | nil => simp at hlen
    | cons d u =>
      rw [List.cons_append] at h
      simp only [isPre, Bool.and_eq_true, beq_iff_eq] at h ⊢
      exact ⟨h.1, ih h.2 (by simpa using hlen)⟩

theorem isPre_append_both (x u v : List Nat) : isPre (x ++ u) (x ++ v) = isPre u v := by
  induction x with
  | nil => rfl
  | cons c t ih => simpa [isPre] using ih

/-- Absence of nontrivial self-overlaps: no proper suffix of `sep` is a
prefix of `sep`.  This is what makes splitting on `sep` unambiguous. -/
def noOverlap (sep : List Nat) : Prop :=
  ∀ t, 0 < t → t < sep.length → isPre (sep.drop t) sep = false

/-- A block of at least one leading `-` followed by a nonempty hyphen-free
tail has no self-overlap. -/
theorem noOverlap_hyphens (k : Nat) (tail : List Nat) (hk : 0 < k)
    (htail : 45 ∉ tail) (hne : tail ≠ []) :
    noOverlap (List.replicate k 45 ++ tail) := by
  intro t ht0 htlen
  by_contra hcon
  rw [Bool.not_eq_false] at hcon
  rcases Nat.lt_or_ge t k with htk | htk
  · rw [List.drop_append_eq_append_drop, List.drop_replicate] at hcon
    simp only [List.length_replicate] at hcon
    have hdt : (tail.drop (t - k)) = tail := by
      rw [Nat.sub_eq_zero_of_le (by omega), List.drop_zero]
    rw [hdt] at hcon
    have hsplit : List.replicate k 45 = List.replicate (k - t) 45 ++ List.replicate t 45 := by
      rw [← List.replicate_add]
      congr 1
      omega
    rw [hsplit, List.append_assoc, isPre_append_both] at hcon
    cases tail with
    | nil => exact hne rfl
    | cons h0 t0 =>
      have hrep : (List.replicate t 45 ++ (h0 :: t0) : List Nat) =
          45 :: (List.replicate (t - 1) 45 ++ (h0 :: t0)) := by
        cases t with
        | zero => omega
        | succ t2 => simp [List.replicate_succ]
      rw [hrep] at hcon
      simp only [isPre, Bool.and_eq_true, beq_iff_eq] at hcon
      exact htail (by simp [← hcon.1])
  · rw [List.drop_append_eq_append_drop, List.drop_replicate] at hcon
    simp only [List.length_replicate] at hcon
    rw [Nat.sub_eq_zero_of_le (by omega), List.replicate_zero, List.nil_append] at hcon
    rcases hdrop : tail.drop (t - k) with _ | ⟨h0, t0⟩
    · have sep_len_contra : (List.replicate k 45 ++ tail).length ≤ t := by
        have := List.drop_eq_nil_iff.mp hdrop
        simp only [List.length_append, List.length_replicate]
        omega
      omega
    · rw [hdrop] at hcon
      have hrep : (List.replicate k 45 ++ tail : List Nat) =
          45 :: (List.replicate (k - 1) 45 ++ tail) := by
        cases k with
        | zero => omega
        | succ k2 => simp [List.replicate_succ]
      rw [hrep] at hcon
      simp only [isPre, Bool.and_eq_true, beq_iff_eq] at hcon
      refine htail ?_
      have hmem : h0 ∈ tail.drop (t - k) := by
        rw [hdrop]
        simp
      have := List.mem_of_mem_drop hmem
      rwa [hcon.1] at this

theorem occursIn_cons_false {pat : List Nat} {c : Nat} {rest : List Nat}
    (h : occursIn pat (c :: rest) = false) :
    isPre pat (c :: rest) = false ∧ occursIn pat rest = false := by
  unfold occursIn searchCS at h
  by_cases hp : isPre pat (c :: rest) = true
  · rw [if_pos hp] at h
    simp at h
  · rw [if_neg hp] at h
    exact ⟨Bool.not_eq_true _ ▸ (by simpa using hp), h⟩

/-- One step of the split worker when the separator does not start here. -/
theorem splitSk_step_no {sep : List Nat} (hsep : sep ≠ []) {c : Nat}
    {rest acc : List Nat} (h : isPre sep (c :: rest) = false) :
    splitSk sep (c :: rest) 0 acc = splitSk sep rest 0 (c :: acc) := by
  cases sep with
  | nil => exact absurd rfl hsep
  | cons p ps => simp [splitSk, h]

/-- Consuming the skip counter steps over a block of characters. -/
theorem splitSk_skip (sep x b acc) :
    splitSk sep (x ++ b) x.length acc = splitSk sep b 0 acc := by
  induction x generalizing acc with
  | nil => rfl
  | cons c t ih => simpa [splitSk] using ih acc

/-- When the separator does not occur, `split` keeps the text whole. -/
theorem splitSk_no_occ (sep : List Nat) (hsep : sep ≠ []) :
    ∀ s acc, occursIn sep s = false →
    splitSk sep s 0 acc = [acc.reverse ++ s] := by
  intro s
  induction s with
  | nil => intro acc _; simp [splitSk]
  | cons c rest ih =>
    intro acc h
    obtain ⟨h1, h2⟩ := occursIn_cons_false h
    rw [splitSk_step_no hsep h1, ih (c :: acc) h2]
    simp

/-- A self-overlap-free separator inside a text splits it at the first
occurrence: the part before (which must itself be separator free) becomes
the first segment and splitting recurses on the part after. -/
theorem splitSk_main {sep : List Nat} (hno : noOverlap sep) (hsep : sep ≠ []) :
    ∀ a b acc, occursIn sep a = false →
    splitSk sep (a ++ (sep ++ b)) 0 acc = (acc.reverse ++ a) :: splitOnB sep b := by
  intro a
  induction a with
  | nil =>
    intro b acc _
    cases sep with
    | nil => exact absurd rfl hsep
    | cons p ps =>
      have h1 : isPre (p :: ps) (p :: (ps ++ b)) = true := by
        simpa using isPre_self_append (p :: ps) b
      rw [List.nil_append,
        show ((p :: ps) ++ b : List Nat) = p :: (ps ++ b) from rfl,
        show splitSk (p :: ps) (p :: (ps ++ b)) 0 acc =
          acc.reverse :: splitSk (p :: ps) (ps ++ b) ps.length [] from by
          simp [splitSk, h1],
        splitSk_skip (p :: ps) ps b []]
      simp [splitOnB]
  | cons c a2 ih =>
    intro b acc h
    obtain ⟨h1, h2⟩ := occursIn_cons_false h
    have hpre : isPre sep (c :: (a2 ++ (sep ++ b))) = false := by
      by_contra hcon
      rw [Bool.not_eq_false] at hcon
      rcases Nat.lt_or_ge (a2.length + 1) sep.length with hl | hl
      · obtain ⟨z, hz⟩ := isPre_exists hcon
        have htake : sep.take (a2.length + 1) = c :: a2 := by
          have := congrArg (List.take (a2.length + 1)) hz
          rw [List.take_append_of_le_length (by omega)] at this
          rw [← this, show (a2.length + 1) = (c :: a2).length from by simp,
            show (c :: (a2 ++ (sep ++ b))) = (c :: a2) ++ (sep ++ b) from rfl,
            List.take_left]
        have hsplit : sep = (c :: a2) ++ sep.drop (a2.length + 1) := by
          conv_lhs => rw [← List.take_append_drop (a2.length + 1) sep]
          rw [htake]
        have hz2 : sep ++ b = sep.drop (a2.length + 1) ++ z := by
          have := hz
          rw [show (c :: (a2 ++ (sep ++ b))) = (c :: a2) ++ (sep ++ b) from rfl] at this
          conv_rhs at this => rw [hsplit]
          rw [List.append_assoc] at this
          exact List.append_cancel_left this
        have hpre2 : isPre (sep.drop (a2.length + 1)) sep = true := by
          refine isPre_of_append b ?_ (by simp only [List.length_drop]; omega)
          rw [hz2, isPre_self_append]
        have := hno (a2.length + 1) (by omega) hl
        rw [hpre2] at this
        exact Bool.noConfusion this
      · have : isPre sep (c :: a2) = true := by
          refine isPre_of_append (sep ++ b) ?_ (by simpa using hl)
          exact hcon
        rw [this] at h1
        exact Bool.noConfusion h1
    rw [show ((c :: a2) ++ (sep ++ b) : List Nat) = c :: (a2 ++ (sep ++ b)) from rfl,
      splitSk_step_no hsep hpre, ih b (c :: acc) h2]
    simp

/-- With no space or tab immediately before a line feed in the input, a
space or tab is never followed by a line feed. -/
theorem ws_nl_head (c : Nat) (rest : List Nat) (hc : c = 32 ∨ c = 9)
    (h32 : occursIn [32, 10] (c :: rest) = false)
    (h9 : occursIn [9, 10] (c :: rest) = false) : rest.head? ≠ some 10 := by
  intro hh
  rcases rest with _ | ⟨d, r⟩
  · simp at hh
  · obtain rfl : d = 10 := by simpa using hh
    rcases hc with rfl | rfl
    · have := (occursIn_cons_false h32).1
      simp [isPre] at this
    · have := (occursIn_cons_false h9).1
      simp [isPre] at this

theorem hexDigU_ge48 (n : Nat) : 48 ≤ hexDigU n := by
  unfold hexDigU
  split <;> omega

/-- Line lengths after the line-feed emission step (with whitespace
protection) of the encoder: a new empty line begins, the completed line
grew by at most 2 (exactly when the protection fired), and stayed at its
length when the last output character was not a space or tab. -/
theorem nl_step (ll : Nat) (ns racc : List Nat) (hln : lineLens racc = ll :: ns) :
    ∃ m, lineLens (nlPush false (wsFix racc)) = 0 :: m :: ns ∧ m ≤ ll + 2 ∧
      ((racc.head? ≠ some 32 ∧ racc.head? ≠ some 9) → m = ll) := by
  rcases racc with _ | ⟨p, t⟩
  · have h1 : (0 : Nat) :: [] = ll :: ns := hln
    rw [List.cons.injEq] at h1
    obtain ⟨h1a, h1b⟩ := h1
    subst h1a
    subst h1b
    exact ⟨0, rfl, by omega, fun _ => rfl⟩
  · by_cases hp : p = 32 ∨ p = 9
    · obtain ⟨k, ks, hkt⟩ := lineLens_head t
      have hp10 : p ≠ 10 := by rcases hp with rfl | rfl <;> decide
      have hpt : (k + 1) :: ks = ll :: ns :=
        (lineLens_cons p t hp10 k ks hkt).symm.trans hln
      rw [List.cons.injEq] at hpt
      obtain ⟨hk, hks⟩ := hpt
      have hw : wsFix (p :: t) = hexDigU (p % 16) :: hexDigU (p / 16) :: 61 :: t := by
        unfold wsFix
        rcases hp with rfl | rfl <;> simp
      have hne1 : hexDigU (p % 16) ≠ 10 := by have := hexDigU_ge48 (p % 16); omega
      have hne2 : hexDigU (p / 16) ≠ 10 := by have := hexDigU_ge48 (p / 16); omega
      have l1 : lineLens (61 :: t) = (k + 1) :: ks :=
        lineLens_cons 61 t (by decide) k ks hkt
      have l2 : lineLens (hexDigU (p / 16) :: 61 :: t) = (k + 2) :: ks :=
        lineLens_cons _ _ hne2 (k + 1) ks l1
      have l3 : lineLens (hexDigU (p % 16) :: hexDigU (p / 16) :: 61 :: t) =
          (k + 3) :: ks := lineLens_cons _ _ hne1 (k + 2) ks l2
      refine ⟨ll + 2, ?_, by omega, fun hcon => ?_⟩
      · rw [show nlPush false (wsFix (p :: t)) = 10 :: wsFix (p :: t) from rfl, hw,
          lineLens_cons10, l3, hks]
        rw [show k + 3 = ll + 2 by omega]
      · rcases hp with rfl | rfl
        · exact absurd rfl hcon.1
        · exact absurd rfl hcon.2
    · have h32 : p ≠ 32 := fun h => hp (Or.inl h)
      have h9 : p ≠ 9 := fun h => hp (Or.inr h)
      have hw : wsFix (p :: t) = p :: t := by simp [wsFix, h32, h9]
      refine ⟨ll, ?_, by omega, fun _ => rfl⟩
      rw [show nlPush false (wsFix (p :: t)) = 10 :: wsFix (p :: t) from rfl, hw,
        lineLens_cons10, hln]

/-- Bound on the physical line lengths the quoted-printable encoder emits:
every line stays within `B` for any `B ≥ 78`, and within `B = 76` or `77`
when no space or tab immediately precedes a line feed in the input. -/
theorem qpEncGo_lines (B : Nat) (hB : 76 ≤ B) :
    ∀ input : List Nat, 13 ∉ input →
      (B < 78 → occursIn [32, 10] input = false ∧ occursIn [9, 10] input = false) →
      ∀ (ll : Nat) (racc ns : List Nat),
        lineLens racc = ll :: ns → (∀ n ∈ ns, n ≤ B) → ll ≤ 76 →
        (ll = 76 → input.head? = some 10 ∨ input = []) →
        (B < 78 → ∀ p, racc.head? = some p → (p = 32 ∨ p = 9) →
          input.head? ≠ some 10) →
        ∀ n ∈ lineLens (qpEncGo false input ll racc), n ≤ B := by
  intro input
  induction input with
  | nil =>
    intro _ _ ll racc ns hln hns hll _ _ n hn
    rw [qpEncGo.eq_1, lineLens_reverse, hln] at hn
    rcases List.mem_cons.mp (List.mem_reverse.mp hn) with rfl | h
    · omega
    · exact hns n h
  | cons c rest ih =>
    intro hcr hstrict ll racc ns hln hns hll h76 hP2
    have hc13 : c ≠ 13 := fun h => hcr (by simp [h])
    have hcr2 : 13 ∉ rest := fun h => hcr (List.mem_cons_of_mem _ h)
    have hstrict2 : B < 78 →
        occursIn [32, 10] rest = false ∧ occursIn [9, 10] rest = false := by
      intro hb
      obtain ⟨h1, h2⟩ := hstrict hb
      exact ⟨(occursIn_cons_false h1).2, (occursIn_cons_false h2).2⟩
    by_cases hc10 : c = 10
    · subst hc10
      rw [qpEncGo.eq_3]
      obtain ⟨m, hm, hmle, hmeq⟩ := nl_step ll ns racc hln
      have hmB : m ≤ B := by
        by_cases hb : B < 78
        · have hmll : m = ll := by
            apply hmeq
            constructor
            · intro hhead
              exact hP2 hb 32 hhead (Or.inl rfl) rfl
            · intro hhead
              exact hP2 hb 9 hhead (Or.inr rfl) rfl
          omega
        · omega
      refine ih hcr2 hstrict2 0 _ (m :: ns) hm ?_ (by omega) (by omega) ?_
      · intro n hn
        rcases List.mem_cons.mp hn with rfl | hn
        · exact hmB
        · exact hns n hn
      · intro _ p hhead hws
        have hp : (10 : Nat) = p := by
          rw [show nlPush false (wsFix racc) = 10 :: wsFix racc from rfl] at hhead
          simpa using hhead
        rcases hws with rfl | rfl <;> exact absurd hp (by decide)
    · have hll75 : ll ≤ 75 := by
        rcases Nat.lt_or_ge ll 76 with h | h
        · omega
        · have h1 : ll = 76 := by omega
          rcases h76 h1 with hh | hh
          · exact absurd (by simpa using hh) hc10
          · exact absurd hh (by simp)
      rw [qpEncGo.eq_4 false ll racc c rest
        (fun r h13 _ => absurd h13 hc13) (fun h => absurd h hc10)]
      by_cases hq : needsQuote c rest.head? ll = true
      · rw [if_pos hq]
        have hne1 : hexDigU (c % 16) ≠ 10 := by have := hexDigU_ge48 (c % 16); omega
        have hne2 : hexDigU (c / 16) ≠ 10 := by have := hexDigU_ge48 (c / 16); omega
        by_cases hbk : ll + 3 ≥ 76
        · rw [if_pos hbk]
          have l1 : lineLens (61 :: racc) = (ll + 1) :: ns :=
            lineLens_cons 61 racc (by decide) ll ns hln
          have l2 : lineLens (10 :: 61 :: racc) = 0 :: (ll + 1) :: ns := by
            rw [lineLens_cons10, l1]
          have l3 : lineLens (61 :: 10 :: 61 :: racc) = 1 :: (ll + 1) :: ns :=
            lineLens_cons 61 _ (by decide) 0 _ l2
          have l4 : lineLens (hexDigU (c / 16) :: 61 :: 10 :: 61 :: racc) =
              2 :: (ll + 1) :: ns := lineLens_cons _ _ hne2 1 _ l3
          have l5 : lineLens (hexDigU (c % 16) :: hexDigU (c / 16) :: 61 :: 10 ::
              61 :: racc) = 3 :: (ll + 1) :: ns := lineLens_cons _ _ hne1 2 _ l4
          refine ih hcr2 hstrict2 3 _ ((ll + 1) :: ns)
            (by
              rw [show (softBreak false racc : List Nat) = 10 :: 61 :: racc from rfl]
              exact l5)
            ?_ (by omega) (by omega) ?_
          · intro n hn
            rcases List.mem_cons.mp hn with rfl | hn
            · omega
            · exact hns n hn
          · intro _ p hhead hws
            have hp : hexDigU (c % 16) = p := by
              rw [show (softBreak false racc : List Nat) = 10 :: 61 :: racc from rfl]
                at hhead
              simpa using hhead
            rcases hws with rfl | rfl <;>
              exact absurd hp (by have := hexDigU_ge48 (c % 16); omega)
        · rw [if_neg hbk]
          have l1 : lineLens (61 :: racc) = (ll + 1) :: ns :=
            lineLens_cons 61 racc (by decide) ll ns hln
          have l2 : lineLens (hexDigU (c / 16) :: 61 :: racc) = (ll + 2) :: ns :=
            lineLens_cons _ _ hne2 (ll + 1) ns l1
          have l3 : lineLens (hexDigU (c % 16) :: hexDigU (c / 16) :: 61 :: racc) =
              (ll + 3) :: ns := lineLens_cons _ _ hne1 (ll + 2) ns l2
          refine ih hcr2 hstrict2 (ll + 3) _ ns l3 hns (by omega) (by omega) ?_
          · intro _ p hhead hws
            have hp : hexDigU (c % 16) = p := by simpa using hhead
            rcases hws with rfl | rfl <;>
              exact absurd hp (by have := hexDigU_ge48 (c % 16); omega)
      · rw [if_neg hq]
        by_cases hbk : (rest ≠ [] && rest.head? != some 10 && decide (ll + 1 ≥ 76))
            = true
        · rw [if_pos hbk]
          have hF : rest.head? ≠ some 10 := by
            intro hh
            simp [hh] at hbk
          have l1 : lineLens (61 :: racc) = (ll + 1) :: ns :=
            lineLens_cons 61 racc (by decide) ll ns hln
          have l2 : lineLens (10 :: 61 :: racc) = 0 :: (ll + 1) :: ns := by
            rw [lineLens_cons10, l1]
          have l3 : lineLens (c :: 10 :: 61 :: racc) = 1 :: (ll + 1) :: ns :=
            lineLens_cons c _ hc10 0 _ l2
          refine ih hcr2 hstrict2 1 _ ((ll + 1) :: ns)
            (by
              rw [show (softBreak false racc : List Nat) = 10 :: 61 :: racc from rfl]
              exact l3)
            ?_ (by omega) (by omega) ?_
          · intro n hn
            rcases List.mem_cons.mp hn with rfl | hn
            · omega
            · exact hns n hn
          · intro _ p hhead hws
            have hp : c = p := by
              rw [show (softBreak false racc : List Nat) = 10 :: 61 :: racc from rfl]
                at hhead
              simpa using hhead
            subst hp
            exact hF
        · rw [if_neg hbk]
          have hbk2 : rest = [] ∨ rest.head? = some 10 ∨ ll + 1 < 76 := by
            by_contra hcon
            push_neg at hcon
            obtain ⟨he, hh, hl⟩ := hcon
            refine hbk (by simp [he, hh]; omega)
          have l1 : lineLens (c :: racc) = (ll + 1) :: ns :=
            lineLens_cons c racc hc10 ll ns hln
          refine ih hcr2 hstrict2 (ll + 1) _ ns l1 hns (by omega) ?_ ?_
          · intro h1
            rcases hbk2 with he | hh | hl
            · exact Or.inr he
            · exact Or.inl hh
            · omega
          · intro hb p hhead hws
            have hp : c = p := by simpa using hhead
            subst hp
            obtain ⟨h32, h9⟩ := hstrict hb
            exact ws_nl_head c rest hws h32 h9

/-! ## The boundary separator has no self-overlap -/

theorem digsRev_digits : ∀ fuel n c, c ∈ digsRev fuel n → 48 ≤ c ∧ c ≤ 57 := by
  intro fuel
  induction fuel with
  | zero => intro n c h; simp [digsRev] at h
  | succ f ih =>
    intro n c h
    by_cases hn : n < 10
    · simp [digsRev, hn] at h
      omega
    · simp only [digsRev, if_neg hn] at h
      rcases List.mem_cons.mp h with rfl | h2
      · have := Nat.mod_lt n (show 0 < 10 by omega)
        omega
      · exact ih _ _ h2

theorem padZ_digits (w n c : Nat) (h : c ∈ padZ w n) : 48 ≤ c ∧ c ≤ 57 := by
  simp only [padZ] at h
  rcases List.mem_append.mp h with h2 | h2
  · have := List.eq_of_mem_replicate h2
    omega
  · simp only [digs] at h2
    exact digsRev_digits _ _ _ (List.mem_reverse.mp h2)

theorem bTail_no45 (t : Tm) : 45 ∉ bTail t := by
  intro h
  simp only [bTail, List.mem_append] at h
  have hlit1 : 45 ∉ sB "=_NextPart_" := by decide
  have hlit2 : 45 ∉ sB "_" := by decide
  rcases h with (((((((h | h) | h) | h) | h) | h) | h) | h)
  · exact hlit1 h
  · exact absurd (padZ_digits _ _ _ h) (by omega)
  · exact absurd (padZ_digits _ _ _ h) (by omega)
  · exact absurd (padZ_digits _ _ _ h) (by omega)
  · exact hlit2 h
  · exact absurd (padZ_digits _ _ _ h) (by omega)
  · exact absurd (padZ_digits _ _ _ h) (by omega)
  · exact absurd (padZ_digits _ _ _ h) (by omega)

theorem sep_eq (t : Tm) : sB "--" ++ mkBoundary t = List.replicate 6 45 ++ bTail t := by
  unfold mkBoundary bTail
  simp only [← List.append_assoc]
  rw [show sB "--" ++ sB "----=_NextPart_" = List.replicate 6 45 ++ sB "=_NextPart_"
    from by decide]

theorem mkBoundary_ne_nil (t : Tm) : mkBoundary t ≠ [] := by
  intro h
  have := congrArg List.length h
  simp only [mkBoundary, List.length_append, List.length_nil] at this
  rw [show (sB "----=_NextPart_").length = 15 from by decide] at this
  omega

theorem bTail_ne_nil (t : Tm) : bTail t ≠ [] := by
  intro h
  have := congrArg List.length h
  simp only [bTail, List.length_append, List.length_nil] at this
  rw [show (sB "=_NextPart_").length = 11 from by decide] at this
  omega

theorem sep_noOverlap (t : Tm) : noOverlap (sB "--" ++ mkBoundary t) := by
  rw [sep_eq]
  exact noOverlap_hyphens 6 (bTail t) (by omega) (bTail_no45 t) (bTail_ne_nil t)

theorem sep_len (t : Tm) : 3 < (sB "--" ++ mkBoundary t).length := by
  rw [sep_eq]
  simp only [List.length_append, List.length_replicate]
  omega

theorem isPre_length {p s : List Nat} (h : isPre p s = true) : p.length ≤ s.length := by
  induction p generalizing s with
  | nil => simp
  | cons c t ih =>
    cases s with
    | nil => simp [isPre] at h
    | cons d u =>
      simp only [isPre, Bool.and_eq_true] at h
      simpa using ih h.2

theorem occursIn_short {pat : List Nat} :
    ∀ {s : List Nat}, s.length < pat.length → occursIn pat s = false := by
  intro s
  induction s with
  | nil =>
    intro h
    cases pat with
    | nil => simp at h
    | cons p ps => simp [occursIn, searchCS]
  | cons c rest ih =>
    intro h
    have h1 : isPre pat (c :: rest) = false := by
      by_contra hcon
      rw [Bool.not_eq_false] at hcon
      have := isPre_length hcon
      omega
    simp only [occursIn, searchCS, h1]
    simp only [List.length_cons] at h
    simpa [occursIn] using ih (by omega)

/-! ## Case-insensitive header search -/

theorem isPreCI_self_append (p b : List Nat) : isPreCI p (p ++ b) = true := by
  induction p with
  | nil => rfl
  | cons c t ih => simpa [isPreCI] using ih

theorem searchCI_self (p b : List Nat) (hp : p ≠ []) : searchCI p (p ++ b) = some b := by
  cases p with
  | nil => exact absurd rfl hp
  | cons c ps =>
    rw [show ((c :: ps) ++ b : List Nat) = c :: (ps ++ b) from rfl]
    simp only [searchCI]
    rw [show (c :: (ps ++ b) : List Nat) = (c :: ps) ++ b from rfl, isPreCI_self_append]
    simp [List.drop_left]

theorem isPreCI_of_append {p a : List Nat} (z : List Nat) (h : isPreCI p (a ++ z) = true)
    (hlen : p.length ≤ a.length) : isPreCI p a = true := by
  induction p generalizing a with
  | nil => rfl
  | cons c t ih =>
    cases a with
    | nil => simp at hlen
    | cons d u =>
      rw [List.cons_append] at h
      simp only [isPreCI, Bool.and_eq_true] at h ⊢
      exact ⟨h.1, ih h.2 (by simpa using hlen)⟩

theorem isPreCI_mid : ∀ (a p b : List Nat), a.length < p.length →
    isPreCI p (a ++ 10 :: b) = true → ∃ q ∈ p, lowerB q = 10 := by
  intro a
  induction a with
  | nil =>
    intro p b hlen h
    cases p with
    | nil => simp at hlen
    | cons q qs =>
      simp only [List.nil_append, isPreCI, Bool.and_eq_true, beq_iff_eq] at h
      exact ⟨q, List.mem_cons_self q qs, by rw [h.1]; decide⟩
  | cons c a2 ih =>
    intro p b hlen h
    cases p with
    | nil => simp at hlen
    | cons q qs =>
      rw [List.cons_append] at h
      simp only [isPreCI, Bool.and_eq_true] at h
      simp only [List.length_cons] at hlen
      obtain ⟨q2, hm, he⟩ := ih qs b (by omega) h.2
      exact ⟨q2, List.mem_cons_of_mem q hm, he⟩

theorem occursInCI_cons_false {pat : List Nat} {c : Nat} {rest : List Nat}
    (h : occursInCI pat (c :: rest) = false) :
    isPreCI pat (c :: rest) = false ∧ occursInCI pat rest = false := by
  unfold occursInCI searchCI at h
  by_cases hp : isPreCI pat (c :: rest) = true
  · rw [if_pos hp] at h
    simp at h
  · rw [if_neg hp] at h
    exact ⟨Bool.not_eq_true _ ▸ (by simpa using hp), h⟩

/-- First case-insensitive occurrence search skips a clean leading block
and the line feed after it when the pattern cannot match a line feed. -/
theorem searchCI_append (pat : List Nat) (hne : pat ≠ [])
    (h10 : ∀ c ∈ pat, lowerB c ≠ 10) :
    ∀ a b, occursInCI pat a = false →
    searchCI pat (a ++ 10 :: b) = searchCI pat b := by
  intro a
  induction a with
  | nil =>
    intro b _
    have hf : isPreCI pat (10 :: b) = false := by
      cases pat with
      | nil => exact absurd rfl hne
      | cons q qs =>
        by_contra hcon
        rw [Bool.not_eq_false] at hcon
        simp only [isPreCI, Bool.and_eq_true, beq_iff_eq] at hcon
        exact h10 q (List.mem_cons_self q qs) (by rw [hcon.1]; decide)
    rw [List.nil_append]
    simp [searchCI, hf]
  | cons c a2 ih =>
    intro b h
    obtain ⟨h1, h2⟩ := occursInCI_cons_false h
    have hf : isPreCI pat (c :: (a2 ++ 10 :: b)) = false := by
      by_contra hcon
      rw [Bool.not_eq_false] at hcon
      rcases Nat.lt_or_ge (a2.length + 1) pat.length with hl | hl
      · obtain ⟨q, hm, he⟩ := isPreCI_mid (c :: a2) pat b (by simpa using hl) hcon
        exact h10 q hm he
      · have : isPreCI pat (c :: a2) = true := by
          refine isPreCI_of_append (10 :: b) ?_ (by simpa using hl)
          exact hcon
        rw [this] at h1
        exact Bool.noConfusion h1
    rw [List.cons_append]
    simp only [searchCI, hf]
    simpa using ih b h2

/-- `takeWhile` up to a line feed collects exactly a line-feed-free block. -/
theorem takeWhile_no10 (a : List Nat) (c0 : Nat) (b : List Nat) (h : 10 ∉ a)
    (hc : c0 = 10) :
    (a ++ c0 :: b).takeWhile (fun c => c ≠ 10) = a := by
  induction a with
  | nil => simp [List.takeWhile, hc]
  | cons c a2 ih =>
    have hcne : c ≠ 10 := fun hcc => h (hcc ▸ List.mem_cons_self c a2)
    have h2 : 10 ∉ a2 := fun hm => h (List.mem_cons_of_mem c hm)
    simp only [List.cons_append, List.takeWhile_cons]
    simp only [hcne, decide_not]
    simpa using ih h2

/-- Stripping a text wrapped in a single leading and trailing line feed,
when the text itself starts and ends with non-whitespace. -/
theorem pstrip_wrap (s : List Nat)
    (hh : ∀ c, s.head? = some c → isWsB c = false)
    (hl : ∀ c, s.getLast? = some c → isWsB c = false) :
    pstrip (10 :: (s ++ [10])) = s := by
  cases s with
  | nil => decide
  | cons c0 s2 =>
    have hc0 : isWsB c0 = false := hh c0 rfl
    have hstep : (10 :: ((c0 :: s2) ++ [10])).dropWhile isWsB = (c0 :: s2) ++ [10] := by
      rw [List.dropWhile_cons]
      simp only [show isWsB 10 = true from rfl, if_true, List.cons_append,
        List.dropWhile_cons, hc0]
      simp
    unfold pstrip
    rw [hstep]
    have hrev : ((c0 :: s2) ++ [10]).reverse = 10 :: (c0 :: s2).reverse := by
      simp
    rw [hrev, List.dropWhile_cons]
    simp only [show isWsB 10 = true from rfl, if_true]
    rcases hlast : (c0 :: s2).getLast? with _ | cl
    · simp at hlast
    · have hwl : isWsB cl = false := hl cl (by simpa using hlast)
      have hrev2 : (c0 :: s2).reverse = cl :: ((c0 :: s2).dropLast).reverse := by
        conv_lhs => rw [← List.dropLast_append_getLast? cl hlast]
        simp
      rw [hrev2, List.dropWhile_cons]
      simp only [hwl]
      simp [← hrev2]

/-- Last element of an append with a nonempty right factor. -/
theorem getLast?_append_right (a b : List Nat) (hb : b ≠ []) :
    (a ++ b).getLast? = b.getLast? := by
  rw [← List.head?_reverse, ← List.head?_reverse, List.reverse_append]
  cases hr : b.reverse with
  | nil => exact absurd (by simpa using hr) hb
  | cons c r2 => simp

/-- First occurrence of a blank line after a clean block. -/
theorem searchCS_nn : ∀ (x y : List Nat), occursIn [10, 10] (x ++ [10]) = false →
    searchCS [10, 10] (x ++ 10 :: 10 :: y) = some y := by
  intro x
  induction x with
  | nil =>
    intro y _
    simp [searchCS, isPre]
  | cons c x2 ih =>
    intro y h
    obtain ⟨h1, h2⟩ := occursIn_cons_false (by simpa using h)
    have hf : isPre [10, 10] (c :: (x2 ++ 10 :: 10 :: y)) = false := by
      by_contra hcon
      rw [Bool.not_eq_false] at hcon
      cases x2 with
      | nil =>
        simp only [List.nil_append, isPre, Bool.and_eq_true, beq_iff_eq] at hcon
        obtain ⟨hc, -⟩ := hcon
        rw [← hc] at h1
        simp [isPre] at h1
      | cons d x3 =>
        simp only [List.cons_append, isPre, Bool.and_eq_true, beq_iff_eq] at hcon
        obtain ⟨hc, hd, -⟩ := hcon
        rw [← hc, ← hd] at h1
        simp [isPre] at h1
    rw [List.cons_append]
    simp only [searchCS, hf]
    simpa using ih y h2

/-- Captured value of a header regex whose search result is known. -/
theorem headerValue_some {pat s rest : List Nat} (h : searchCI pat s = some rest) :
    headerValue pat s = pstrip (rest.takeWhile (fun c => c ≠ 10)) := by
  unfold headerValue
  rw [h]

/-! ## Parsing one assembled part segment -/

/-- Field extraction on the stripped segment body: each header regex finds
its own line first, captures up to the line feed, and the body split fires
at the intended blank line. -/
theorem chunk_fields (r : Res) (enc : List Nat)
    (hm10 : 10 ∉ r.mime) (hmps : pstrip r.mime = r.mime)
    (hu10 : 10 ∉ r.url) (hups : pstrip r.url = r.url)
    (hs10 : 10 ∉ r.sch) (hsps : pstrip r.sch = r.sch)
    (hci1 : occursInCI (sB "Content-Transfer-Encoding: ")
      (sB "Content-Type: " ++ r.mime) = false)
    (hci2 : occursInCI (sB "Content-Location: ")
      (sB "Content-Type: " ++ r.mime) = false)
    (hci3 : occursInCI (sB "Content-Location: ")
      (sB "Content-Transfer-Encoding: " ++ r.sch) = false)
    (hnn : occursIn (sB "\n\n") (hdrNoBlank r ++ [10]) = false) :
    headerValue (sB "Content-Type: ") (hdrNoBlank r ++ 10 :: 10 :: enc) = r.mime ∧
    headerValue (sB "Content-Transfer-Encoding: ")
      (hdrNoBlank r ++ 10 :: 10 :: enc) = r.sch ∧
    headerValue (sB "Content-Location: ") (hdrNoBlank r ++ 10 :: 10 :: enc) = r.url ∧
    splitAfterBlank (hdrNoBlank r ++ 10 :: 10 :: enc) = some enc := by
  have hform1 : hdrNoBlank r ++ 10 :: 10 :: enc
      = sB "Content-Type: " ++ (r.mime ++ 10 :: (sB "Content-Transfer-Encoding: " ++
        (r.sch ++ 10 :: (sB "Content-Location: " ++ (r.url ++ 10 :: 10 :: enc))))) := by
    simp only [hdrNoBlank]
    rw [show sB "\nContent-Transfer-Encoding: "
          = 10 :: sB "Content-Transfer-Encoding: " from by decide,
        show sB "\nContent-Location: " = 10 :: sB "Content-Location: " from by decide]
    simp [List.append_assoc]
  have hform2 : hdrNoBlank r ++ 10 :: 10 :: enc
      = (sB "Content-Type: " ++ r.mime) ++ 10 :: (sB "Content-Transfer-Encoding: " ++
        (r.sch ++ 10 :: (sB "Content-Location: " ++ (r.url ++ 10 :: 10 :: enc)))) := by
    rw [hform1]
    simp [List.append_assoc]
  have hform3 : hdrNoBlank r ++ 10 :: 10 :: enc
      = (sB "Content-Type: " ++ r.mime) ++ 10 ::
        ((sB "Content-Transfer-Encoding: " ++ r.sch) ++ 10 ::
          (sB "Content-Location: " ++ (r.url ++ 10 :: 10 :: enc))) := by
    rw [hform1]
    simp [List.append_assoc]
  refine ⟨?_, ?_, ?_, ?_⟩
  · have hs : searchCI (sB "Content-Type: ") (hdrNoBlank r ++ 10 :: 10 :: enc)
        = some (r.mime ++ 10 :: (sB "Content-Transfer-Encoding: " ++
          (r.sch ++ 10 :: (sB "Content-Location: " ++ (r.url ++ 10 :: 10 :: enc))))) := by
      rw [hform1, searchCI_self _ _ (by decide)]
    rw [headerValue_some hs, takeWhile_no10 r.mime 10 _ hm10 rfl]
    exact hmps
  · have hs : searchCI (sB "Content-Transfer-Encoding: ") (hdrNoBlank r ++ 10 :: 10 :: enc)
        = some (r.sch ++ 10 :: (sB "Content-Location: " ++ (r.url ++ 10 :: 10 :: enc))) := by
      rw [hform2,
        searchCI_append (sB "Content-Transfer-Encoding: ") (by decide) (by decide) _ _ hci1,
        searchCI_self _ _ (by decide)]
    rw [headerValue_some hs, takeWhile_no10 r.sch 10 _ hs10 rfl]
    exact hsps
  · have hs : searchCI (sB "Content-Location: ") (hdrNoBlank r ++ 10 :: 10 :: enc)
        = some (r.url ++ 10 :: 10 :: enc) := by
      rw [hform3,
        searchCI_append (sB "Content-Location: ") (by decide) (by decide) _ _ hci2,
        searchCI_append (sB "Content-Location: ") (by decide) (by decide) _ _ hci3,
        searchCI_self _ _ (by decide)]
    rw [headerValue_some hs]
    rw [show (10 :: 10 :: enc : List Nat) = 10 :: (10 :: enc) from rfl] at *
    rw [takeWhile_no10 r.url 10 _ hu10 rfl]
    exact hups
  · have hnn2 : occursIn [10, 10] (hdrNoBlank r ++ [10]) = false := by
      rw [show ([10, 10] : List Nat) = sB "\n\n" from by decide]
      exact hnn
    have hs : searchCS (sB "\n\n") (hdrNoBlank r ++ 10 :: 10 :: enc) = some enc := by
      rw [show sB "\n\n" = ([10, 10] : List Nat) from by decide,
        searchCS_nn (hdrNoBlank r) enc hnn2]
    unfold splitAfterBlank
    rw [hs]

/-- Parsing one assembled part segment recovers the resource exactly. -/
theorem parse_part_chunk (r : Res) (h : resOK r = true) :
    parse_part (tailOf r ++ [10]) = .ok (some (ppartOf r)) := by
  simp only [resOK, Bool.and_eq_true, Bool.or_eq_true, beq_iff_eq, Bool.not_eq_true',
    List.all_eq_true, decide_eq_true_eq, decide_eq_false_iff_not] at h
  obtain ⟨⟨⟨⟨⟨⟨⟨⟨⟨⟨hsch, hbytes⟩, hm10⟩, hmps⟩, hu10⟩, hups⟩, hci1⟩, hci2⟩, hci3⟩,
    hnn⟩, hlast⟩ := h
  have hs10 : 10 ∉ r.sch := by
    rcases hsch with h1 | ⟨h1, -⟩ <;> rw [h1] <;> decide
  have hsps : pstrip r.sch = r.sch := by
    rcases hsch with h1 | ⟨h1, -⟩ <;> rw [h1] <;> decide
  have hsne : r.sch ≠ [] := by
    rcases hsch with h1 | ⟨h1, -⟩ <;> rw [h1] <;> decide
  have hene : encFor r.sch r.body ≠ [] := by
    intro he
    rw [he] at hlast
    simp [lastNonWs] at hlast
  have hlast2 : ∀ c, (encFor r.sch r.body).getLast? = some c → isWsB c = false := by
    intro c hc
    unfold lastNonWs at hlast
    rw [hc] at hlast
    simpa using hlast
  have hhead : (hdrNoBlank r ++ 10 :: 10 :: encFor r.sch r.body).head? = some 67 := by
    simp only [hdrNoBlank]
    rw [show sB "Content-Type: " = 67 :: sB "ontent-Type: " from by decide]
    simp
  have hp0 : tailOf r ++ [10]
      = 10 :: ((hdrNoBlank r ++ 10 :: 10 :: encFor r.sch r.body) ++ [10]) := by
    simp only [tailOf, partTail, hdrNoBlank]
    rw [show sB "\nContent-Type: " = 10 :: sB "Content-Type: " from by decide,
        show sB "\nContent-Transfer-Encoding: "
          = 10 :: sB "Content-Transfer-Encoding: " from by decide,
        show sB "\nContent-Location: " = 10 :: sB "Content-Location: " from by decide,
        show sB "\n\n" = ([10, 10] : List Nat) from by decide]
    simp [List.append_assoc]
  have hpstrip : pstrip (tailOf r ++ [10])
      = hdrNoBlank r ++ 10 :: 10 :: encFor r.sch r.body := by
    rw [hp0]
    refine pstrip_wrap _ ?_ ?_
    · intro c hc
      rw [hhead] at hc
      simp only [Option.some.injEq] at hc
      rw [← hc]
      decide
    · intro c hc
      rw [show hdrNoBlank r ++ 10 :: 10 :: encFor r.sch r.body
            = (hdrNoBlank r ++ [10, 10]) ++ encFor r.sch r.body from by simp] at hc
      rw [getLast?_append_right _ _ hene] at hc
      exact hlast2 c hc
  obtain ⟨hv1, hv2, hv3, hsplit⟩ :=
    chunk_fields r (encFor r.sch r.body) hm10 hmps hu10 hups hs10 hsps hci1 hci2 hci3 hnn
  simp only [parse_part, hpstrip, hv1, hv2, hv3, hsplit]
  rw [if_neg hsne]
  rcases hsch with hb | ⟨hq, hcr⟩
  · rw [hb, if_pos rfl]
    rw [show encFor (sB "base64") r.body = wrap76 (b64Encode r.body) from by
      unfold encFor
      rw [if_pos rfl]]
    rw [b64_roundtrip r.body hbytes]
    simp [ppartOf, hb]
  · rw [hq, if_neg (by decide), if_pos rfl]
    rw [show encFor (sB "quoted-printable") r.body = qpEncode r.body from by
      unfold encFor
      rw [if_neg (by decide)]]
    rw [qp_roundtrip r.body hbytes hcr]
    simp [ppartOf, hq]

/-! ## Splitting and collecting the assembled message -/

theorem splitOnB_segs {sep : List Nat} (hno : noOverlap sep) (hlen : 3 < sep.length) :
    ∀ (ts : List (List Nat)) (a : List Nat), occursIn sep (a ++ [10]) = false →
    (∀ x ∈ ts, occursIn sep (x ++ [10]) = false) →
    splitOnB sep ((a ++ [10]) ++ (sep ++ segsText sep ts)) =
      (a ++ [10]) :: (ts.map (fun x => x ++ [10]) ++ [sB "--\n"]) := by
  have hsep : sep ≠ [] := by
    intro h
    rw [h] at hlen
    simp at hlen
  intro ts
  induction ts with
  | nil =>
    intro a ha _
    unfold splitOnB
    rw [splitSk_main hno hsep _ _ _ ha]
    rw [show segsText sep [] = sB "--\n" from rfl]
    unfold splitOnB
    rw [splitSk_no_occ sep hsep _ []
      (occursIn_short (by rw [show (sB "--\n").length = 3 from by decide]; exact hlen))]
    simp
  | cons x rest ih =>
    intro a ha hts
    unfold splitOnB
    rw [splitSk_main hno hsep _ _ _ ha]
    rw [show segsText sep (x :: rest) = (x ++ [10]) ++ (sep ++ segsText sep rest) from by
      simp [segsText, List.append_assoc]]
    have h2 := ih x (hts x (List.mem_cons_self x rest))
      (fun y hy => hts y (List.mem_cons_of_mem x hy))
    rw [h2]
    simp

theorem collectParts_cons_none {x : List Nat} {rest : List (List Nat)} {ps : List PPart}
    (h1 : parse_part x = .ok none) (h2 : collectParts rest = .ok ps) :
    collectParts (x :: rest) = .ok ps := by
  simp [collectParts, h1, h2]

theorem collectParts_map (rs : List Res) (h : ∀ r ∈ rs, resOK r = true) :
    collectParts (rs.map (fun r => tailOf r ++ [10])) = .ok (rs.map ppartOf) := by
  induction rs with
  | nil => rfl
  | cons r rest ih =>
    simp only [List.map_cons]
    have h1 := parse_part_chunk r (h r (List.mem_cons_self r rest))
    have h2 := ih (fun y hy => h y (List.mem_cons_of_mem r hy))
    simp [collectParts, h1, h2]

theorem collectParts_snoc_none : ∀ (l : List (List Nat)) (ps : List PPart) (x : List Nat),
    collectParts l = .ok ps → parse_part x = .ok none →
    collectParts (l ++ [x]) = .ok ps := by
  intro l
  induction l with
  | nil =>
    intro ps x h1 h2
    simp only [collectParts] at h1
    simp only [Except.ok.injEq] at h1
    rw [List.nil_append, ← h1]
    simp [collectParts, h2]
  | cons y l2 ih =>
    intro ps x h1 h2
    rw [List.cons_append]
    cases hy : parse_part y with
    | error e =>
      rw [collectParts.eq_def] at h1
      simp [hy] at h1
    | ok r =>
      cases hl : collectParts l2 with
      | error e =>
        rw [collectParts.eq_def] at h1
        simp [hy, hl] at h1
      | ok out =>
        have h3 := ih out x hl h2
        rw [collectParts.eq_def] at h1
        simp only [hy, hl] at h1
        rw [collectParts.eq_def]
        simp only [hy, h3]
        cases r with
        | none => simpa using h1
        | some p => simpa using h1

theorem collectParts_all (hd : List Nat) (rs : List Res)
    (hhd : parse_part hd = .ok none)
    (h : ∀ r ∈ rs, resOK r = true) :
    collectParts (hd :: (rs.map (fun r => tailOf r ++ [10]) ++ [sB "--\n"])) =
      .ok (rs.map ppartOf) := by
  have hlast : parse_part (sB "--\n") = .ok none := by decide
  exact collectParts_cons_none hhd
    (collectParts_snoc_none _ _ _ (collectParts_map rs h) hlast)

/-- Reparsing the assembled text: the preamble segment and the closing
segment are dropped, and each part segment parses back to its resource. -/
theorem mhtml_parses (title enc0 timestamp : List Nat) (t : Tm) (rs : List Res)
    (hB : findBoundary (mhtmlText title enc0 timestamp t rs) = some (mkBoundary t))
    (hhd : parse_part (add_header (q_encode title enc0) timestamp (mkBoundary t) ++ [10])
      = .ok none)
    (hocc0 : occursIn (sB "--" ++ mkBoundary t)
      (add_header (q_encode title enc0) timestamp (mkBoundary t) ++ [10]) = false)
    (hocc : ∀ r ∈ rs, occursIn (sB "--" ++ mkBoundary t) (tailOf r ++ [10]) = false)
    (hres : ∀ r ∈ rs, resOK r = true) :
    parse_file (mhtmlText title enc0 timestamp t rs) = .ok (rs.map ppartOf) := by
  have hts : ∀ x ∈ rs.map tailOf,
      occursIn (sB "--" ++ mkBoundary t) (x ++ [10]) = false := by
    intro x hx
    obtain ⟨r, hr, rfl⟩ := List.mem_map.mp hx
    exact hocc r hr
  simp only [parse_file]
  rw [hB]
  simp only [Option.getD_some]
  rw [if_neg (mkBoundary_ne_nil t)]
  rw [show mhtmlText title enc0 timestamp t rs
      = ((add_header (q_encode title enc0) timestamp (mkBoundary t)) ++ [10]) ++
        ((sB "--" ++ mkBoundary t) ++
          segsText (sB "--" ++ mkBoundary t) (rs.map tailOf)) from rfl]
  rw [splitOnB_segs (sep_noOverlap t) (sep_len t) (rs.map tailOf) _ hocc0 hts]
  rw [show (rs.map tailOf).map (fun x => x ++ [10])
      = rs.map (fun r => tailOf r ++ [10]) from by simp [List.map_map, Function.comp]]
  exact collectParts_all _ rs hhd hres

/-! ## The emitted text of the assembler -/

theorem partFull_eq (sch B ct url body : List Nat) :
    partFull sch B ct url body
      = [10] ++ ((sB "--" ++ B) ++ partTail sch ct url body) := by
  unfold partFull partHeader partTail
  rw [show sB "\n--" = (10 :: sB "--" : List Nat) from by decide]
  simp [List.append_assoc]

theorem segs_rot (sep : List Nat) : ∀ (rs : List Res),
    ((rs.map (fun r => [10] ++ (sep ++ tailOf r))).flatten) ++
        ([10] ++ (sep ++ sB "--\n"))
      = [10] ++ (sep ++ segsText sep (rs.map tailOf)) := by
  intro rs
  induction rs with
  | nil => simp [segsText]
  | cons r rest ih =>
    simp only [List.map_cons, List.flatten_cons, segsText]
    rw [List.append_assoc, ih]
    simp [segsText, List.append_assoc]

theorem imgParts_eq (B : List Nat) : ∀ (ims : List Res),
    (∀ r ∈ ims, resolveImgMime r.url r.body = .ok r.mime ∧ r.sch = sB "base64") →
    imgParts B (ims.map (fun r => (r.url, r.body)))
      = .ok ((ims.map (fun r => partFull r.sch B r.mime r.url r.body)).flatten) := by
  intro ims
  induction ims with
  | nil => intro _; simp [imgParts]
  | cons r rest ih =>
    intro h
    obtain ⟨h1, h2⟩ := h r (List.mem_cons_self r rest)
    have h3 := ih (fun y hy => h y (List.mem_cons_of_mem r hy))
    have h4 : add_part (sB "base64") B r.mime r.url r.body
        = .ok (partFull r.sch B r.mime r.url r.body) := by
      rw [h2]
      unfold add_part
      rw [if_neg (by decide), if_pos rfl]
      unfold partFull encFor
      rw [if_pos rfl]
    simp [imgParts, h1, h3, h4]

theorem linkParts_eq (vals : Vals) (B : List Nat) : ∀ (lks : List Res),
    (∀ r ∈ lks, r.sch = linkScheme vals r.mime ∧
      (r.mime ∈ vals.base64_mime_types ∨ r.mime ∈ vals.qp_mime_types)) →
    linkParts vals B (lks.map (fun r => (r.url, r.mime, r.body)))
      = .ok ((lks.map (fun r => partFull r.sch B r.mime r.url r.body)).flatten) := by
  intro lks
  induction lks with
  | nil => intro _; simp [linkParts]
  | cons r rest ih =>
    intro h
    obtain ⟨h1, h2⟩ := h r (List.mem_cons_self r rest)
    have h3 := ih (fun y hy => h y (List.mem_cons_of_mem r hy))
    by_cases hb : r.mime ∈ vals.base64_mime_types
    · have hsch : r.sch = sB "base64" := by
        rw [h1]
        unfold linkScheme
        rw [if_pos hb]
      have h4 : add_part (sB "base64") B r.mime r.url r.body
          = .ok (partFull r.sch B r.mime r.url r.body) := by
        rw [hsch]
        unfold add_part
        rw [if_neg (by decide), if_pos rfl]
        unfold partFull encFor
        rw [if_pos rfl]
      simp [linkParts, hb, h4, h3]
    · have hq : r.mime ∈ vals.qp_mime_types := by
        rcases h2 with h2 | h2
        · exact absurd h2 hb
        · exact h2
      have hsch : r.sch = sB "quoted-printable" := by
        rw [h1]
        unfold linkScheme
        rw [if_neg hb]
      have h4 : add_part (sB "quoted-printable") B r.mime r.url r.body
          = .ok (partFull r.sch B r.mime r.url r.body) := by
        rw [hsch]
        unfold add_part
        rw [if_pos rfl]
        unfold partFull encFor
        rw [if_neg (by decide)]
      simp [linkParts, hb, hq, h4, h3]

/-- The text `get_url` emits, as the split-ready `mhtmlText` form. -/
theorem get_url_eq (vals : Vals) (url0 title enc0 mp timestamp : List Nat) (t : Tm)
    (ims lks : List Res)
    (him : ∀ r ∈ ims, resolveImgMime r.url r.body = .ok r.mime ∧ r.sch = sB "base64")
    (hlk : ∀ r ∈ lks, r.sch = linkScheme vals r.mime ∧
      (r.mime ∈ vals.base64_mime_types ∨ r.mime ∈ vals.qp_mime_types)) :
    get_url vals url0 title enc0 mp timestamp t
        (ims.map (fun r => (r.url, r.body))) (lks.map (fun r => (r.url, r.mime, r.body)))
      = .ok (mhtmlText title enc0 timestamp t (rootRes url0 enc0 mp :: (ims ++ lks))) := by
  have hroot : add_part (sB "quoted-printable") (mkBoundary t)
      (sB "text/html; charset=\"" ++ enc0 ++ sB "\"") url0 mp
      = .ok (partFull (sB "quoted-printable") (mkBoundary t)
          (sB "text/html; charset=\"" ++ enc0 ++ sB "\"") url0 mp) := by
    unfold add_part
    rw [if_pos rfl]
    unfold partFull encFor
    rw [if_neg (by decide)]
  have hfun : (fun (r : Res) => partFull r.sch (mkBoundary t) r.mime r.url r.body)
      = (fun r => [10] ++ ((sB "--" ++ mkBoundary t) ++ tailOf r)) := by
    funext r
    rw [partFull_eq]
    rfl
  have hR : mhtmlText title enc0 timestamp t (rootRes url0 enc0 mp :: (ims ++ lks))
      = add_header (q_encode title enc0) timestamp (mkBoundary t) ++
        ((((rootRes url0 enc0 mp :: (ims ++ lks)).map
            (fun r => [10] ++ ((sB "--" ++ mkBoundary t) ++ tailOf r))).flatten) ++
          ([10] ++ ((sB "--" ++ mkBoundary t) ++ sB "--\n"))) := by
    unfold mhtmlText
    rw [List.append_assoc, ← segs_rot]
  simp only [get_url, hroot, imgParts_eq (mkBoundary t) ims him,
    linkParts_eq vals (mkBoundary t) lks hlk]
  rw [hR, partFull_eq, hfun]
  rw [show sB "\n--" = ([10] ++ sB "--" : List Nat) from by decide]
  simp [rootRes, tailOf, List.append_assoc]

/-- C8 counterexample.  On the input of 74 `x` bytes, a space, and a line
feed, the end-of-line whitespace protection of `b2a_qp` rewrites the
trailing space to `=20` after the line already has 75 characters, producing
a 77-character physical line, which exceeds the claimed 76. -/
theorem claim_C8_counterexample :
    lineLens (qpEncode (List.replicate 74 120 ++ [32, 10])) = [77, 0] := by decide

/-- C8 as amended.  Base64 output is wrapped at exactly 76 characters per
line (all lines except possibly the last are exactly 76, and none is
longer).  Quoted-printable output keeps every physical line within 78
characters, and within the claimed 76 whenever no space or tab immediately
precedes a line feed in the (CR-free) input; the trailing-whitespace escape
can push a line to 77 or 78 characters. -/
theorem claim_C8 :
    (∀ b : List Nat, (∀ c ∈ b, c < 256) →
        (∀ n ∈ lineLens (wrap76 (b64Encode b)), n ≤ 76) ∧
        ∀ n ∈ (lineLens (wrap76 (b64Encode b))).dropLast, n = 76) ∧
    (∀ b : List Nat, 13 ∉ b → ∀ n ∈ lineLens (qpEncode b), n ≤ 78) ∧
    (∀ b : List Nat, 13 ∉ b → occursIn [32, 10] b = false →
        occursIn [9, 10] b = false → ∀ n ∈ lineLens (qpEncode b), n ≤ 76) := by
  refine ⟨?_, ?_, ?_⟩
  · intro b hb
    rcases he : b64Encode b with _ | ⟨e0, et⟩
    · constructor
      · intro n hn
        simp only [wrap76, he, List.length_nil, chunks76, List.intercalate,
          List.intersperse] at hn
        have : n = 0 := by simpa [lineLens] using hn
        omega
      · intro n hn
        simp only [wrap76, he, List.length_nil, chunks76, List.intercalate,
          List.intersperse] at hn
        simp [lineLens] at hn
    · have h10 : ∀ l ∈ chunks76 (b64Encode b).length (b64Encode b), 10 ∉ l :=
        fun l hl hmem => b64Encode_no10 b hb (chunks76_mem_sub _ _ l hl 10 hmem)
      have hLne : chunks76 (b64Encode b).length (b64Encode b) ≠ [] := by
        rw [he]
        simp [chunks76]
      have hlin : lineLens (wrap76 (b64Encode b)) =
          (chunks76 (b64Encode b).length (b64Encode b)).map List.length := by
        unfold wrap76
        exact lineLens_intercalate _ hLne h10
      constructor
      · intro n hn
        rw [← he, hlin] at hn
        obtain ⟨l, hl, rfl⟩ := List.mem_map.mp hn
        exact chunks76_mem_le _ _ l hl
      · intro n hn
        rw [← he, hlin, ← List.map_dropLast] at hn
        obtain ⟨l, hl, rfl⟩ := List.mem_map.mp hn
        exact chunks76_dropLast _ _ l hl
  · intro b hcr n hn
    unfold qpEncode at hn
    rw [detectCRLF_no13 b hcr] at hn
    exact qpEncGo_lines 78 (by omega) b hcr (fun hb => absurd hb (by omega)) 0 [] []
      rfl (by simp) (by omega) (fun h => absurd h (by omega))
      (fun hb => absurd hb (by omega)) n hn
  · intro b hcr h32 h9 n hn
    unfold qpEncode at hn
    rw [detectCRLF_no13 b hcr] at hn
    exact qpEncGo_lines 76 (by omega) b hcr (fun _ => ⟨h32, h9⟩) 0 [] []
      rfl (by simp) (by omega) (fun h => absurd h (by omega))
      (fun _ p hp => by simp at hp) n hn

/-- Witness for C8, instantiating all three bounds on concrete inputs. -/
theorem claim_C8_witness : (4 : Nat) ≤ 76 ∧ (5 : Nat) ≤ 78 ∧ (5 : Nat) ≤ 76 :=
  ⟨(claim_C8.1 (sB "abc") (by decide)).1 4 (by decide),
   claim_C8.2.1 (sB "hello\n") (by decide) 5 (by decide),
   claim_C8.2.2 (sB "hello\n") (by decide) (by decide) (by decide) 5 (by decide)⟩

/-- C3.  An input with no `boundary="..."` match fails with the
missing-boundary error and produces no parts at all. -/
theorem claim_C3 (s : List Nat) (h : findBoundary s = none) :
    parse_file s = .error .missingBoundary := by
  unfold parse_file
  rw [h]
  rfl

/-- Witness for C3 at the concrete input `"hello world"`. -/
theorem claim_C3_witness :
    findBoundary (sB "hello world") = none ∧
      parse_file (sB "hello world") = .error .missingBoundary :=
  ⟨by decide, claim_C3 (sB "hello world") (by decide)⟩

/-- C10.  An input with a boundary declaration and a segment that carries a
transfer-encoding line but no blank line makes `parse_file` raise an
unhandled `IndexError` (both split attempts fail), so the parser is not
total over inputs containing a boundary token. -/
theorem claim_C10 :
    parse_file (sB "x boundary=\"B\"\n--B\nContent-Transfer-Encoding: base64") =
      .error .crash := by decide

/-- C5.  The sniffing fallback of the image-type resolver is broken: the
operator-precedence slip in `ext2mime` sends every sniffed type that is not
`gif` or `png` to `image/jpeg` (so BMP data resolves to `image/jpeg`, not
`image/bmp`), and bytes matching no signature make `imghdr.what` return
`None`, on which `ext2mime` raises `TypeError` instead of producing the
`application/octet-stream` fallback. -/
theorem claim_C5 :
    resolveImgMime (sB "http://x/img") (sB "BM0000000000000000") = .ok (sB "image/jpeg") ∧
      sB "image/jpeg" ≠ sB "image/bmp" ∧
      resolveImgMime (sB "http://x/img") (sB "hello world junk") = .error .crash := by
  refine ⟨by decide, by decide, by decide⟩

/-- C7.  `q_encode` produces the encoded word
`=?charset?Q?payload?=` whose payload is exactly the quoted-printable
encoding of the UTF-8 bytes of the text with `?` and `_` hex-escaped and,
after that, every literal space mapped to `_`; on `"A?_B C"` it yields the
single encoded word `=?utf-8?Q?A=3F=5FB_C?=`. -/
theorem qSubst_compose (t : List Nat) :
    reSub1 32 (sB "_") (reSub1 95 (sB "=5F") (reSub1 63 (sB "=3F") t)) =
      (t.flatMap qSpecEsc).flatMap qSpecSpace := by
  simp only [reSub1_eq_flatMap, List.flatMap_assoc]
  induction t with
  | nil => rfl
  | cons c t ih =>
    simp only [List.flatMap_cons, ih, List.append_cancel_right_eq]
    by_cases h63 : c = 63
    · subst h63; rfl
    by_cases h95 : c = 95
    · subst h95; rfl
    by_cases h32 : c = 32
    · subst h32; rfl
    simp [qSpecEsc, qSpecSpace, h63, h95, h32]

theorem claim_C7 :
    (∀ s enc : List Nat,
      q_encode s enc = sB "=?" ++ enc ++ sB "?Q?" ++ qSpecPayload s ++ sB "?=") ∧
      q_encode (sB "A?_B C") (sB "utf-8") = sB "=?utf-8?Q?A=3F=5FB_C?=" := by
  constructor
  · intro s enc
    unfold q_encode qSpecPayload
    simp only [List.append_assoc, List.append_cancel_left_eq]
    rw [qSubst_compose]
  · decide

/-- C2 counterexample.  The claimed round trip `decode(encode(b, s), s) = b`
fails for the quoted-printable scheme on the concrete byte sequence
`a LF b CR LF`: `b2a_qp` detects the LF line-end convention from the first
line and normalizes the final CRLF to a bare LF, so the decode returns
`a LF b LF`. -/
theorem claim_C2_counterexample :
    qpDecode (qpEncode (sB "a\nb" ++ [13, 10])) ≠ sB "a\nb" ++ [13, 10] := by decide

/-- C2 as amended.  The round trip `decode(encode(b, s), s) = b` holds for
the base64 scheme (through the 76-column wrapping of `add_part`) on every
byte sequence, and for the quoted-printable scheme on every byte sequence
containing no carriage-return byte; inputs mixing bare-LF and CRLF line
endings are normalized by the encoder and do not round-trip. -/
theorem claim_C2 :
    (∀ b : List Nat, (∀ c ∈ b, c < 256) →
      b64Decode (wrap76 (b64Encode b)) = some b) ∧
    (∀ b : List Nat, (∀ c ∈ b, c < 256) → 13 ∉ b →
      qpDecode (qpEncode b) = b) :=
  ⟨b64_roundtrip, qp_roundtrip⟩

/-- Witness for C2 on two concrete byte sequences. -/
theorem claim_C2_witness :
    b64Decode (wrap76 (b64Encode (sB "hello\n"))) = some (sB "hello\n") ∧
      qpDecode (qpEncode (sB "hi = there\n")) = sB "hi = there\n" :=
  ⟨claim_C2.1 (sB "hello\n") (by decide),
   claim_C2.2 (sB "hi = there\n") (by decide) (by decide)⟩

/-- C4.  A transfer-encoding scheme other than `quoted-printable` and
`base64` is fatal on both sides: `add_part` aborts (the code prints and
calls `sys.exit(-1)`), and `parse_part` on a segment whose extracted
`Content-Transfer-Encoding` value is nonempty and unrecognized aborts the
parse (the code reaches `return` with the local `s` unbound, an unhandled
`NameError`); neither produces a result and nothing is retried. -/
theorem claim_C4 (ptype boundary ct url contents seg : List Nat)
    (h1 : ptype ≠ sB "quoted-printable") (h2 : ptype ≠ sB "base64")
    (h3 : headerValue (sB "Content-Transfer-Encoding: ") (pstrip seg) ≠ [])
    (h4 : headerValue (sB "Content-Transfer-Encoding: ") (pstrip seg) ≠ sB "base64")
    (h5 : headerValue (sB "Content-Transfer-Encoding: ") (pstrip seg) ≠ sB "quoted-printable")
    (h6 : (splitAfterBlank (pstrip seg)).isSome) :
    add_part ptype boundary ct url contents = .error .unsupportedEncoding ∧
      parse_part seg = .error .unsupportedEncoding := by
  constructor
  · unfold add_part
    rw [if_neg h1, if_neg h2]
  · obtain ⟨c, hc⟩ := Option.isSome_iff_exists.mp h6
    simp only [parse_part, hc, if_neg h3, if_neg h4, if_neg h5]

/-- Witness for C4 at the scheme `7bit`. -/
theorem claim_C4_witness :
    add_part (sB "7bit") (sB "B") (sB "a/b") (sB "u") (sB "hi") =
        .error .unsupportedEncoding ∧
      parse_part (sB "Content-Transfer-Encoding: 7bit\n\nhi") =
        .error .unsupportedEncoding :=
  claim_C4 (sB "7bit") (sB "B") (sB "a/b") (sB "u")
    (sB "hi") (sB "Content-Transfer-Encoding: 7bit\n\nhi")
    (by decide) (by decide) (by decide) (by decide) (by decide) (by decide)

theorem parse_part_te {seg : List Nat} {p : PPart} (h : parse_part seg = .ok (some p)) :
    p.transfer_encoding ≠ [] := by
  simp only [parse_part] at h
  split at h
  · simp at h
  next hne =>
    split at h
    · simp at h
    split at h
    · split at h
      · rw [Except.ok.injEq, Option.some.injEq] at h
        subst h
        exact hne
      · simp at h
    split at h
    · rw [Except.ok.injEq, Option.some.injEq] at h
      subst h
      exact hne
    · simp at h

theorem collectParts_te :
    ∀ segs parts, collectParts segs = .ok parts →
      ∀ p ∈ parts, p.transfer_encoding ≠ [] := by
  intro segs
  induction segs with
  | nil =>
    intro parts h p hp
    simp only [collectParts, Except.ok.injEq] at h
    subst h
    simp at hp
  | cons seg rest ih =>
    intro parts h p hp
    simp only [collectParts] at h
    split at h
    · simp at h
    next r hr =>
      split at h
      · simp at h
      next out hout =>
        split at h
        · rw [Except.ok.injEq] at h
          subst h
          exact ih out hout p hp
        next q =>
          rw [Except.ok.injEq] at h
          subst h
          rcases List.mem_cons.mp hp with h1 | h1
          · subst h1
            exact parse_part_te hr
          · exact ih out hout p h1

/-- C6.  Every part of a successfully parsed message has a nonempty
transfer encoding: a segment in which no `Content-Transfer-Encoding` line is
found (the preamble before the first boundary, the closing segment) is
dropped and never surfaces as a part. -/
theorem claim_C6 (s : List Nat) (parts : List PPart) (h : parse_file s = .ok parts) :
    ∀ p ∈ parts, p.transfer_encoding ≠ [] := by
  simp only [parse_file] at h
  split at h
  · simp at h
  · exact collectParts_te _ parts h

/-- Witness for C6 on a two-segment message whose preamble is dropped. -/
theorem claim_C6_witness :
    parse_file (sB "boundary=\"B\"\n--B\nContent-Transfer-Encoding: base64\n\nQUJD\n--B--\n") =
        .ok [⟨[], sB "base64", [], sB "ABC"⟩] ∧
      PPart.transfer_encoding ⟨[], sB "base64", [], sB "ABC"⟩ ≠ [] :=
  ⟨by decide,
   claim_C6 (sB "boundary=\"B\"\n--B\nContent-Transfer-Encoding: base64\n\nQUJD\n--B--\n")
     [⟨[], sB "base64", [], sB "ABC"⟩] (by decide) ⟨[], sB "base64", [], sB "ABC"⟩
     (by decide)⟩

/-- C1 counterexample.  Assembling a message whose root document is the
two bytes `a` and line feed, then parsing the result, yields a single part
whose decoded body is the single byte `a`: the `part.strip()` of
`parse_part` eats the trailing line feed of the quoted-printable payload,
so the decoded body is not the body that was supplied. -/
theorem claim_C1_counterexample :
    (match get_url defaultVals (sB "http://e/x.html") (sB "T") (sB "utf-8") (sB "a\n")
        (sB "now") ⟨2024, 1, 2, 3, 4, 5⟩ [] [] with
      | .ok out => parse_file out
      | .error e => .error e)
      = .ok [⟨sB "text/html; charset=\"utf-8\"", sB "quoted-printable",
          sB "http://e/x.html", sB "a"⟩] ∧
    sB "a" ≠ sB "a\n" := by decide

/-- C1 as amended.  For every configuration, root document, and list of
resources whose MIME types fall in the base64 or quoted-printable
classification set, parsing the text produced by assembling them yields
exactly one part per input, root document first and then the resources in
the given order, each carrying the content type, content location, and
decoded body that was supplied — provided each resource is reparse-clean
(`resOK`: supported scheme with carriage-return-free body for
quoted-printable, byte-valued body, header fields free of line feeds and
surrounding whitespace, no stray header pattern or blank line inside the
header lines, and an encoded body that is nonempty and does not end in
whitespace), the boundary regex finds the generated boundary, the header
block carries no transfer-encoding line and no separator occurrence, and
no part text contains the separator. -/
theorem claim_C1 (vals : Vals) (url0 title enc0 mp timestamp : List Nat) (t : Tm)
    (lks : List Res)
    (hall : ∀ r ∈ rootRes url0 enc0 mp :: lks, resOK r = true)
    (hlk : ∀ r ∈ lks, r.sch = linkScheme vals r.mime ∧
      (r.mime ∈ vals.base64_mime_types ∨ r.mime ∈ vals.qp_mime_types))
    (hB : findBoundary (mhtmlText title enc0 timestamp t (rootRes url0 enc0 mp :: lks))
      = some (mkBoundary t))
    (hhd : parse_part (add_header (q_encode title enc0) timestamp (mkBoundary t) ++ [10])
      = .ok none)
    (hocc0 : occursIn (sB "--" ++ mkBoundary t)
      (add_header (q_encode title enc0) timestamp (mkBoundary t) ++ [10]) = false)
    (hocc : ∀ r ∈ rootRes url0 enc0 mp :: lks,
      occursIn (sB "--" ++ mkBoundary t) (tailOf r ++ [10]) = false) :
    get_url vals url0 title enc0 mp timestamp t []
        (lks.map (fun r => (r.url, r.mime, r.body)))
      = .ok (mhtmlText title enc0 timestamp t (rootRes url0 enc0 mp :: lks)) ∧
    parse_file (mhtmlText title enc0 timestamp t (rootRes url0 enc0 mp :: lks))
      = .ok ((rootRes url0 enc0 mp :: lks).map ppartOf) := by
  refine ⟨?_, mhtml_parses title enc0 timestamp t _ hB hhd hocc0 hocc hall⟩
  exact get_url_eq vals url0 title enc0 mp timestamp t [] lks
    (by intro r hr; exact absurd hr (List.not_mem_nil r)) hlk

/-- Witness for C1: a root document and two resources (one
quoted-printable, one base64) assemble and reparse to exactly three parts
carrying the supplied fields and bodies. -/
theorem claim_C1_witness :
    get_url defaultVals (sB "http://e/x.html") (sB "T") (sB "utf-8") (sB "<p>hi")
        (sB "now") ⟨2024, 1, 2, 3, 4, 5⟩ []
        (([⟨sB "text/css", sB "http://e/s.css", sB "quoted-printable", sB "b.c"⟩,
           ⟨sB "image/png", sB "http://e/i.png", sB "base64", sB "PNG"⟩] : List Res).map
          (fun r => (r.url, r.mime, r.body)))
      = .ok (mhtmlText (sB "T") (sB "utf-8") (sB "now") ⟨2024, 1, 2, 3, 4, 5⟩
          (rootRes (sB "http://e/x.html") (sB "utf-8") (sB "<p>hi") ::
            [⟨sB "text/css", sB "http://e/s.css", sB "quoted-printable", sB "b.c"⟩,
             ⟨sB "image/png", sB "http://e/i.png", sB "base64", sB "PNG"⟩])) ∧
    parse_file (mhtmlText (sB "T") (sB "utf-8") (sB "now") ⟨2024, 1, 2, 3, 4, 5⟩
          (rootRes (sB "http://e/x.html") (sB "utf-8") (sB "<p>hi") ::
            [⟨sB "text/css", sB "http://e/s.css", sB "quoted-printable", sB "b.c"⟩,
             ⟨sB "image/png", sB "http://e/i.png", sB "base64", sB "PNG"⟩]))
      = .ok ((rootRes (sB "http://e/x.html") (sB "utf-8") (sB "<p>hi") ::
            [⟨sB "text/css", sB "http://e/s.css", sB "quoted-printable", sB "b.c"⟩,
             ⟨sB "image/png", sB "http://e/i.png", sB "base64", sB "PNG"⟩]).map ppartOf) :=
  claim_C1 defaultVals (sB "http://e/x.html") (sB "T") (sB "utf-8") (sB "<p>hi")
    (sB "now") ⟨2024, 1, 2, 3, 4, 5⟩
    [⟨sB "text/css", sB "http://e/s.css", sB "quoted-printable", sB "b.c"⟩,
     ⟨sB "image/png", sB "http://e/i.png", sB "base64", sB "PNG"⟩]
    (by decide) (by decide) (by decide) (by decide) (by decide) (by decide)

/-- C9.  Every resource taken from the image list is emitted with transfer
encoding base64 unconditionally: even when its resolved MIME type lies in
the quoted-printable or ignore classification set, the assembled text
carries a base64 part for it, and the reparsed part reports transfer
encoding base64 and the exact body; the classification sets govern only
the linked resources. -/
theorem claim_C9 (vals : Vals) (url0 title enc0 mp timestamp : List Nat) (t : Tm)
    (iurl ibody m : List Nat)
    (hresolve : resolveImgMime iurl ibody = .ok m)
    (hclass : m ∈ vals.qp_mime_types ∨ m ∈ vals.ignore_mime_types)
    (hall : ∀ r ∈ [rootRes url0 enc0 mp, ⟨m, iurl, sB "base64", ibody⟩], resOK r = true)
    (hB : findBoundary (mhtmlText title enc0 timestamp t
        [rootRes url0 enc0 mp, ⟨m, iurl, sB "base64", ibody⟩]) = some (mkBoundary t))
    (hhd : parse_part (add_header (q_encode title enc0) timestamp (mkBoundary t) ++ [10])
      = .ok none)
    (hocc0 : occursIn (sB "--" ++ mkBoundary t)
      (add_header (q_encode title enc0) timestamp (mkBoundary t) ++ [10]) = false)
    (hocc : ∀ r ∈ [rootRes url0 enc0 mp, (⟨m, iurl, sB "base64", ibody⟩ : Res)],
      occursIn (sB "--" ++ mkBoundary t) (tailOf r ++ [10]) = false) :
    get_url vals url0 title enc0 mp timestamp t [(iurl, ibody)] []
      = .ok (mhtmlText title enc0 timestamp t
          [rootRes url0 enc0 mp, ⟨m, iurl, sB "base64", ibody⟩]) ∧
    parse_file (mhtmlText title enc0 timestamp t
        [rootRes url0 enc0 mp, ⟨m, iurl, sB "base64", ibody⟩])
      = .ok [ppartOf (rootRes url0 enc0 mp), ⟨m, sB "base64", iurl, ibody⟩] := by
  have him : ∀ r ∈ [(⟨m, iurl, sB "base64", ibody⟩ : Res)],
      resolveImgMime r.url r.body = .ok r.mime ∧ r.sch = sB "base64" := by
    intro r hr
    rcases List.mem_cons.mp hr with rfl | hr
    · exact ⟨hresolve, rfl⟩
    · exact absurd hr (List.not_mem_nil r)
  refine ⟨?_, mhtml_parses title enc0 timestamp t _ hB hhd hocc0 hocc hall⟩
  exact get_url_eq vals url0 title enc0 mp timestamp t
    [⟨m, iurl, sB "base64", ibody⟩] [] him
    (by intro r hr; exact absurd hr (List.not_mem_nil r))

/-- Witness for C9: an image whose URL resolves to `text/css`, a member of
the quoted-printable classification set of the default configuration, is
still emitted and reparsed as a base64 part. -/
theorem claim_C9_witness :
    get_url defaultVals (sB "http://e/x.html") (sB "T") (sB "utf-8") (sB "<p>hi")
        (sB "now") ⟨2024, 1, 2, 3, 4, 5⟩ [(sB "http://e/u.css", sB "x")] []
      = .ok (mhtmlText (sB "T") (sB "utf-8") (sB "now") ⟨2024, 1, 2, 3, 4, 5⟩
          [rootRes (sB "http://e/x.html") (sB "utf-8") (sB "<p>hi"),
           ⟨sB "text/css", sB "http://e/u.css", sB "base64", sB "x"⟩]) ∧
    parse_file (mhtmlText (sB "T") (sB "utf-8") (sB "now") ⟨2024, 1, 2, 3, 4, 5⟩
        [rootRes (sB "http://e/x.html") (sB "utf-8") (sB "<p>hi"),
         ⟨sB "text/css", sB "http://e/u.css", sB "base64", sB "x"⟩])
      = .ok [ppartOf (rootRes (sB "http://e/x.html") (sB "utf-8") (sB "<p>hi")),
          ⟨sB "text/css", sB "base64", sB "http://e/u.css", sB "x"⟩] :=
  claim_C9 defaultVals (sB "http://e/x.html") (sB "T") (sB "utf-8") (sB "<p>hi")
    (sB "now") ⟨2024, 1, 2, 3, 4, 5⟩ (sB "http://e/u.css") (sB "x") (sB "text/css")
    (by decide) (by decide) (by decide) (by decide) (by decide) (by decide) (by decide)

end Mhtml
